import Mathlib

/-!
# Verification of the PessimisticAlphaZero MCTS core

This file gives a shallow embedding of the search-tree data structures and
operations of the repository and proves (or refutes) the specification claims
about them.

Two node models appear in the sources and both are embedded here:

* `AZ` — the self-contained `Node`/`UCB`/`MCTS` classes of `src/alphazero.py`
  (its `Node` stores `subtree_value`, starts with `visits = 1`, and its `step`
  bumps the child's visit counter).
* `Core` — the driver of `src/mcts.py`, which imports a `Node` class from a
  `node` module that is not part of the sources; the fields of that class are
  pinned by the way `mcts.py` reads and writes them (`reward`, `visits`,
  `subtree_sum`, `value_evaluation`, `terminal`, `env`, `observation`,
  `parent`, `children`, `action_space`), and its constructor defaults and the
  trivial accessors (`step`, `is_terminal`, `is_fully_expanded`,
  `default_value`) are modelled from the specification.

Python dictionaries are embedded as insertion-ordered association lists, and
mutation of the parent-linked tree is embedded as functional update along an
explicit root-to-node path.

The file is organised as definitions first, then lemmas and the claim
theorems.
-/

namespace PAZ

/-! ## Definitions: insertion-ordered association lists (Python `dict`) -/

/-- Lookup in an insertion-ordered association list (`d[k]`, first match). -/
def alookup {α : Type _} : List (ℕ × α) → ℕ → Option α
  | [], _ => none
  | (k, v) :: l, k' => if k = k' then some v else alookup l k'

/-- Assignment `d[k] = v` in an insertion-ordered association list: an existing
key keeps its position and gets the new value, a new key is appended at the
end (Python dict semantics). -/
def ainsert {α : Type _} : List (ℕ × α) → ℕ → α → List (ℕ × α)
  | [], k, v => [(k, v)]
  | (k0, v0) :: l, k, v =>
    if k0 = k then (k0, v) :: l else (k0, v0) :: ainsert l k v

/-- The keys of an association list, in insertion order (Python dict
iteration order). -/
def akeys {α : Type _} (l : List (ℕ × α)) : List ℕ := l.map Prod.fst

/-! ## Definitions: Python `max(iterable, key=...)` -/

/-- Python `max(iterable, key=key)`: scans left to right keeping the current
maximum and replacing it only on a strictly greater key, so the first element
attaining the maximum wins.  `max` raises `ValueError` on an empty iterable,
embedded as `none`. -/
def pymaxKey {α β : Type _} [LinearOrder β] (key : α → β) : List α → Option α
  | [] => none
  | x :: xs => some (xs.foldl (fun best y => if key best < key y then y else best) x)

/-- `m` is the first element of `l` attaining the maximum of `key`: everything
before it scores strictly less and everything after it scores no more. -/
def FirstArgmax {α β : Type _} [LinearOrder β] (key : α → β) (l : List α) (m : α) : Prop :=
  ∃ l₁ l₂, l = l₁ ++ m :: l₂ ∧ (∀ z ∈ l₁, key z < key m) ∧ (∀ z ∈ l₂, key z ≤ key m)

/-! ## Definitions: the `Node` class of `src/alphazero.py` (namespace `AZ`)

`Node` in `alphazero.py` stores `parent`, `children` (a dict keyed by action),
`visits` (class default `1`), `subtree_value` (default `0.0`),
`value_evaluation` (default `0.0`), `reward`, `action_space` (discrete of size
`n`), `observation` and `terminal`.  Parent links are represented implicitly:
a node owns its children, and tree-walking operations work on root-to-node
paths.  Scalars are embedded as `ℚ`. -/

namespace AZ

/-- The scalar fields of an `alphazero.py` `Node` (everything except the
child table). `n` is `action_space.n`. -/
structure NodeData where
  reward : ℚ
  visits : ℕ
  subtree_value : ℚ
  value_evaluation : ℚ
  terminal : Bool
  n : ℕ
  deriving Repr, DecidableEq

/-- An `alphazero.py` `Node` together with the subtree below it: scalar data
plus the insertion-ordered child table. -/
inductive Node : Type where
  | mk (data : NodeData) (children : List (ℕ × Node))

/-- Scalar data of a node. -/
def Node.data : Node → NodeData
  | .mk d _ => d

/-- Child table of a node. -/
def Node.children : Node → List (ℕ × Node)
  | .mk _ cs => cs

/-- `Node.is_fully_expanded`: `len(self.children) == self.action_space.n`. -/
def Node.fullyExpanded (t : Node) : Prop := t.children.length = t.data.n

instance (t : Node) : Decidable t.fullyExpanded := by
  unfold Node.fullyExpanded; infer_instance

/-- `Node.default_value`: `self.subtree_value / self.visits`.  The Python
division raises `ZeroDivisionError` when `visits == 0`, so the embedding is
`Option`-valued: `none` is the raised exception. -/
def Node.default_value (t : Node) : Option ℚ :=
  if t.data.visits = 0 then none else some (t.data.subtree_value / t.data.visits)

/-- `Node.step(action)`: looks up `self.children[action]` (a missing key
raises `KeyError`, embedded as `none`), increments that child's `visits`
counter in place, and returns the child.  The result is the pair
(updated tree rooted at `self`, returned child). -/
def Node.step (t : Node) (a : ℕ) : Option (Node × Node) :=
  match alookup t.children a with
  | none => none
  | some (Node.mk cd ccs) =>
    let c' := Node.mk { cd with visits := cd.visits + 1 } ccs
    some (Node.mk t.data (ainsert t.children a c'), c')

/-- `Node.sample_unexplored_action`: builds a mask that is `1` exactly on the
actions without a child and calls `action_space.sample(mask=mask)`.  Gymnasium
samples uniformly among the mask's valid actions and, as quoted in the
method's own docstring, returns `space.start` (here `0`) when no action is
valid.  The RNG draw is exposed as the index `pick` into the list of valid
actions. -/
def Node.sample_unexplored_action (t : Node) (pick : ℕ) : ℕ :=
  let valid := (List.range t.data.n).filter (fun a => a ∉ akeys t.children)
  if valid = [] then 0 else valid.getD (pick % valid.length) 0

/-- The score `UCB.ucb(node, action)` of `alphazero.py`:
`child.default_value() + c * (node.visits / child.visits) ** 0.5`.  Both
divisions are Python float divisions; a missing child raises `KeyError` and a
zero-visit child raises `ZeroDivisionError` in `default_value`, while here
`ℚ`-division by zero is `0` — `UCB.__call__` only evaluates the score on
stored children, and the theorems require `child.visits ≥ 1`, where the
embedding agrees with the source. -/
noncomputable def ucbScore (c : ℝ) (t : Node) (a : ℕ) : ℝ :=
  match alookup t.children a with
  | none => 0
  | some child =>
      ((child.data.subtree_value / child.data.visits : ℚ) : ℝ) +
        c * Real.sqrt ((t.data.visits : ℝ) / (child.data.visits : ℝ))

/-- `UCB.__call__`: returns `None` ("expand here") unless the node is fully
expanded, otherwise `max(node.children, key=lambda action: self.ucb(node,
action))`, i.e. the Python max over the child keys in dict insertion order. -/
noncomputable def UCBcall (c : ℝ) (t : Node) : Option ℕ :=
  if ¬ t.fullyExpanded then none
  else pymaxKey (ucbScore c t) (akeys t.children)

/-! ### Concrete `alphazero.py` nodes used to instantiate the theorems -/

/-- A leaf with five visits and subtree value `10`. -/
def leaf1 : Node := Node.mk ⟨1, 5, 10, 0, false, 2⟩ []

/-- A two-action node with the single child `leaf1` stored under action `0`. -/
def parent0 : Node := Node.mk ⟨0, 3, 1, 0, false, 2⟩ [(0, leaf1)]

/-- The tree `parent0` after `step(0)`: the child's visits went from 5 to 6. -/
def parent0' : Node := Node.mk ⟨0, 3, 1, 0, false, 2⟩ [(0, Node.mk ⟨1, 6, 10, 0, false, 2⟩ [])]

/-- The child returned by `parent0.step 0`. -/
def leaf1' : Node := Node.mk ⟨1, 6, 10, 0, false, 2⟩ []

/-- A node with zero visits (reachable only by mutating a node by hand:
`alphazero.py` initialises `visits = 1`). -/
def visits0 : Node := Node.mk ⟨0, 0, 0, 0, false, 2⟩ []

/-- A fully expanded single-action node. -/
def fullnode : Node := Node.mk ⟨0, 1, 0, 0, false, 1⟩ [(0, leaf1)]

/-- A once-visited child with subtree value `0`. -/
def tieChild : Node := Node.mk ⟨0, 1, 0, 0, false, 2⟩ []

/-- A fully expanded two-action node whose children were inserted in the
order `1`, then `0`, with identical statistics — so both actions attain the
maximal UCB score. -/
def tieNode : Node := Node.mk ⟨0, 2, 0, 0, false, 2⟩ [(1, tieChild), (0, tieChild)]

end AZ

/-! ## Lemmas: association lists -/

@[simp] theorem alookup_nil {α : Type _} (k : ℕ) : alookup ([] : List (ℕ × α)) k = none := rfl

@[simp] theorem alookup_cons {α : Type _} (k0 : ℕ) (v0 : α) (l : List (ℕ × α)) (k : ℕ) :
    alookup ((k0, v0) :: l) k = if k0 = k then some v0 else alookup l k := rfl

@[simp] theorem akeys_nil {α : Type _} : akeys ([] : List (ℕ × α)) = [] := rfl

@[simp] theorem akeys_cons {α : Type _} (k0 : ℕ) (v0 : α) (l : List (ℕ × α)) :
    akeys ((k0, v0) :: l) = k0 :: akeys l := rfl

theorem alookup_isSome_iff_mem {α : Type _} (l : List (ℕ × α)) (k : ℕ) :
    (alookup l k).isSome ↔ k ∈ akeys l := by
  induction l with
  | nil => simp [alookup]
  | cons hd tl ih =>
    obtain ⟨k0, v0⟩ := hd
    by_cases h : k0 = k
    · subst h; simp [alookup]
    · rw [akeys_cons, List.mem_cons]
      simp only [alookup_cons, if_neg h, ih]
      constructor
      · exact Or.inr
      · rintro (h' | h')
        · exact absurd h'.symm h
        · exact h'

theorem alookup_eq_none_iff {α : Type _} (l : List (ℕ × α)) (k : ℕ) :
    alookup l k = none ↔ k ∉ akeys l := by
  rw [← alookup_isSome_iff_mem]
  cases alookup l k <;> simp

theorem alookup_mem {α : Type _} {l : List (ℕ × α)} {k : ℕ} {v : α}
    (h : alookup l k = some v) : (k, v) ∈ l := by
  induction l with
  | nil => simp [alookup] at h
  | cons hd tl ih =>
    obtain ⟨k0, v0⟩ := hd
    by_cases hk : k0 = k
    · subst hk
      simp [alookup] at h
      subst h; exact List.mem_cons_self _ _
    · simp [alookup, hk] at h
      exact List.mem_cons_of_mem _ (ih h)

@[simp] theorem ainsert_self {α : Type _} (l : List (ℕ × α)) (k : ℕ) (v : α) :
    alookup (ainsert l k v) k = some v := by
  induction l with
  | nil => simp [ainsert, alookup]
  | cons hd tl ih =>
    obtain ⟨k0, v0⟩ := hd
    by_cases h : k0 = k <;> simp [ainsert, alookup, h, ih]

theorem ainsert_other {α : Type _} (l : List (ℕ × α)) (k k' : ℕ) (v : α) (h : k' ≠ k) :
    alookup (ainsert l k v) k' = alookup l k' := by
  induction l with
  | nil => simp [ainsert, alookup, Ne.symm h]
  | cons hd tl ih =>
    obtain ⟨k0, v0⟩ := hd
    by_cases h0 : k0 = k
    · subst h0
      simp [ainsert, alookup, Ne.symm h]
    · simp [ainsert, alookup, h0, ih]

theorem akeys_ainsert_mem {α : Type _} (l : List (ℕ × α)) (k : ℕ) (v : α)
    (h : k ∈ akeys l) : akeys (ainsert l k v) = akeys l := by
  induction l with
  | nil => simp at h
  | cons hd tl ih =>
    obtain ⟨k0, v0⟩ := hd
    rw [akeys_cons, List.mem_cons] at h
    by_cases h0 : k0 = k
    · simp [ainsert, h0]
    · rcases h with h | h
      · exact absurd h.symm h0
      · simp [ainsert, h0, ih h]

theorem akeys_ainsert_not_mem {α : Type _} (l : List (ℕ × α)) (k : ℕ) (v : α)
    (h : k ∉ akeys l) : akeys (ainsert l k v) = akeys l ++ [k] := by
  induction l with
  | nil => simp [ainsert]
  | cons hd tl ih =>
    obtain ⟨k0, v0⟩ := hd
    rw [akeys_cons, List.mem_cons] at h
    push_neg at h
    simp [ainsert, Ne.symm h.1, ih h.2]

/-! ## Lemmas: Python `max` -/

theorem pyfold_spec {α β : Type _} [LinearOrder β] (key : α → β) :
    ∀ (xs : List α) (b : α),
      (xs.foldl (fun best y => if key best < key y then y else best) b = b ∧
        ∀ y ∈ xs, key y ≤ key b) ∨
      (∃ l₁ m l₂, xs = l₁ ++ m :: l₂ ∧
        xs.foldl (fun best y => if key best < key y then y else best) b = m ∧
        key b < key m ∧ (∀ z ∈ l₁, key z < key m) ∧ (∀ z ∈ l₂, key z ≤ key m)) := by
  intro xs
  induction xs with
  | nil => intro b; exact Or.inl ⟨rfl, by simp⟩
  | cons x xs ih =>
    intro b
    rw [List.foldl_cons]
    by_cases hx : key b < key x
    · rw [if_pos hx]
      rcases ih x with ⟨heq, hall⟩ | ⟨l₁, m, l₂, hdec, hres, hgt, h₁, h₂⟩
      · exact Or.inr ⟨[], x, xs, by simp, heq, hx, by simp, hall⟩
      · refine Or.inr ⟨x :: l₁, m, l₂, by rw [hdec]; rfl, hres, hx.trans hgt, ?_, h₂⟩
        intro z hz
        rcases List.mem_cons.mp hz with hz | hz
        · rw [hz]; exact hgt
        · exact h₁ z hz
    · rw [if_neg hx]
      rcases ih b with ⟨heq, hall⟩ | ⟨l₁, m, l₂, hdec, hres, hgt, h₁, h₂⟩
      · refine Or.inl ⟨heq, ?_⟩
        intro y hy
        rcases List.mem_cons.mp hy with hy | hy
        · rw [hy]; exact not_lt.mp hx
        · exact hall y hy
      · refine Or.inr ⟨x :: l₁, m, l₂, by rw [hdec]; rfl, hres, hgt, ?_, h₂⟩
        intro z hz
        rcases List.mem_cons.mp hz with hz | hz
        · rw [hz]; exact lt_of_le_of_lt (not_lt.mp hx) hgt
        · exact h₁ z hz

theorem pymaxKey_firstArgmax {α β : Type _} [LinearOrder β] (key : α → β)
    {l : List α} {m : α} (h : pymaxKey key l = some m) :
    FirstArgmax key l m ∧ ∀ z ∈ l, key z ≤ key m := by
  match l with
  | [] => simp [pymaxKey] at h
  | x :: xs =>
    simp only [pymaxKey, Option.some.injEq] at h
    rcases pyfold_spec key xs x with ⟨heq, hall⟩ | ⟨l₁, m', l₂, hdec, hres, hgt, h₁, h₂⟩
    · rw [heq] at h
      subst h
      refine ⟨⟨[], xs, by simp, by simp, hall⟩, ?_⟩
      intro z hz
      rcases List.mem_cons.mp hz with hz | hz
      · rw [hz]
      · exact hall z hz
    · rw [hres] at h
      subst h
      refine ⟨⟨x :: l₁, l₂, by rw [hdec]; rfl, ?_, h₂⟩, ?_⟩
      · intro z hz
        rcases List.mem_cons.mp hz with hz | hz
        · rw [hz]; exact hgt
        · exact h₁ z hz
      · intro z hz
        rcases List.mem_cons.mp hz with hz | hz
        · rw [hz]; exact le_of_lt hgt
        · rw [hdec] at hz
          rcases List.mem_append.mp hz with hz | hz
          · exact le_of_lt (h₁ z hz)
          · rcases List.mem_cons.mp hz with hz | hz
            · rw [hz]
            · exact h₂ z hz

theorem pymaxKey_of_ne_nil {α β : Type _} [LinearOrder β] (key : α → β)
    {l : List α} (h : l ≠ []) : ∃ m, pymaxKey key l = some m := by
  match l with
  | [] => exact absurd rfl h
  | x :: xs => exact ⟨_, rfl⟩

/-! ## Definitions: the search core of `src/mcts.py` (namespace `Core`)

`mcts.py` imports its `Node` class from a `node` module that is not among the
sources.  The fields below are exactly the ones `mcts.py` reads and writes
(`env`, `reward`, `visits`, `subtree_sum`, `value_evaluation`, `terminal`,
`observation`, `action_space`, `children`, `parent`); the constructor
defaults `visits = 0`, `subtree_sum = 0`, `value_evaluation = 0`,
`terminal = false` and the accessors `is_terminal`, `is_fully_expanded`,
`default_value` and `step` are modelled from the specification (§3, §4.1,
§4.5).  Parent links are represented by explicit root-to-node paths: the walk
`node = node.parent` of `backup` becomes recursion along the path.

The environment is abstract: a state type `E`, an observation type `O`, and a
transition function `estep : E → ℕ → E × O × ℚ × Bool × Bool` returning the
new state and the `(observation, reward, terminated, truncated)` tuple of
`env.step(action)`.  `copy.deepcopy` of an environment is the identity on the
value `e` (the embedding is functional, so sharing is irrelevant). -/

namespace Core

/-- Scalar fields of the core `Node`. `A` is `action_space.n`. -/
structure NodeData (E O : Type) where
  env : Option E
  reward : ℚ
  visits : ℕ
  subtree_sum : ℚ
  value_evaluation : ℚ
  terminal : Bool
  observation : Option O
  A : ℕ

/-- A core `Node` together with the subtree below it. -/
inductive CNode (E O : Type) : Type where
  | mk (data : NodeData E O) (children : List (ℕ × CNode E O))

variable {E O : Type}

/-- Scalar data of a node. -/
def CNode.data : CNode E O → NodeData E O
  | .mk d _ => d

/-- Child table of a node (a Python dict keyed by action index). -/
def CNode.children : CNode E O → List (ℕ × CNode E O)
  | .mk _ cs => cs

/-- `is_fully_expanded`: `len(self.children) == self.action_space.n`. -/
def CNode.fullyExpanded (t : CNode E O) : Prop := t.children.length = t.data.A

instance (t : CNode E O) : Decidable t.fullyExpanded := by
  unfold CNode.fullyExpanded; infer_instance

/-- `default_value`, modelled from the spec: `subtree_sum / visits` if
`visits > 0`, else `0`. -/
def CNode.default_value (t : CNode E O) : ℚ :=
  if t.data.visits = 0 then 0 else t.data.subtree_sum / t.data.visits

/-- The node reached from `t` by following the child table along the path
`p` (a node is identified with the root-to-node action sequence; `none` when
the path leaves the tree). -/
def getNode : CNode E O → List ℕ → Option (CNode E O)
  | t, [] => some t
  | t, a :: p =>
    match alookup t.children a with
    | none => none
    | some c => getNode c p

/-- In-place mutation of the node at path `p`, embedded functionally: replace
that node by `f` of it.  `none` when the path leaves the tree. -/
def modifyAt (f : CNode E O → CNode E O) : CNode E O → List ℕ → Option (CNode E O)
  | t, [] => some (f t)
  | t, a :: p =>
    match alookup t.children a with
    | none => none
    | some c =>
      (modifyAt f c p).map (fun c' => CNode.mk t.data (ainsert t.children a c'))

/-- One backup update of a node's statistics:
`node.subtree_sum += cum_reward; node.visits += new_visits`. -/
def bump (g : ℚ) (nv : ℕ) (d : NodeData E O) : NodeData E O :=
  { d with subtree_sum := d.subtree_sum + g, visits := d.visits + nv }

/-- `MCTS.backup(start_node, value, new_visits)` of `mcts.py`: starting from
the node at the end of path `p` with `cum_reward = value`, walk up the parent
chain; at each node do `cum_reward *= discount_factor; cum_reward +=
node.reward; node.subtree_sum += cum_reward; node.visits += new_visits`.
The recursion processes the path bottom-up, exactly unwinding the `while
node is not None` loop; the result is the updated tree and the final
`cum_reward` at the root. -/
def backup (γ v : ℚ) (nv : ℕ) : CNode E O → List ℕ → Option (CNode E O × ℚ)
  | .mk d cs, [] =>
    let g := γ * v + d.reward
    some (.mk (bump g nv d) cs, g)
  | .mk d cs, a :: p =>
    match alookup cs a with
    | none => none
    | some c =>
      match backup γ v nv c p with
      | none => none
      | some (c', gc) =>
        let g := γ * gc + d.reward
        some (.mk (bump g nv d) (ainsert cs a c'), g)

/-- The accumulator value the backup recurrence assigns to the head of `t`
when the leaf estimate `v` enters at the end of path `p`: `γ·v + reward` at
the start node, then `γ·g + reward` at each ancestor.  Defined independently
of `backup`, top-down, as the spec states it. -/
def pathG (γ v : ℚ) : CNode E O → List ℕ → Option ℚ
  | t, [] => some (γ * v + t.data.reward)
  | t, a :: p =>
    match alookup t.children a with
    | none => none
    | some c =>
      match pathG γ v c p with
      | none => none
      | some g => some (γ * g + t.data.reward)

/-- Assignment `node.value_evaluation = v`. -/
def setVal (v : ℚ) (t : CNode E O) : CNode E O :=
  .mk { t.data with value_evaluation := v } t.children

/-- `MCTS.expand(node, action)`: when `len(node.children) ==
node.action_space.n - 1` (Python integer arithmetic, hence the `ℤ` cast) the
node's environment snapshot is moved to the expansion (`node.env = None`),
otherwise it is deep-copied; `assert env is not None` raises (`none`) when no
snapshot is left; the chosen environment is stepped once with `action`, the
observation is dropped if the step terminated, and the new child is stored
under `action` with the stepped environment and constructor-default
statistics. -/
def expandNode (estep : E → ℕ → E × O × ℚ × Bool × Bool)
    (t : CNode E O) (a : ℕ) : Option (CNode E O) :=
  match t.data.env with
  | none => none
  | some e =>
    let res := estep e a
    let terminal := res.2.2.2.1 || res.2.2.2.2
    let obs : Option O := if res.2.2.2.1 then none else some res.2.1
    let child : CNode E O :=
      .mk ⟨some res.1, res.2.2.1, 0, 0, 0, terminal, obs, t.data.A⟩ []
    some (.mk
      { t.data with
          env := if (t.children.length : ℤ) = (t.data.A : ℤ) - 1 then none
                 else some e }
      (ainsert t.children a child))

theorem sizeOf_lookup_lt {t : CNode E O} {a : ℕ} {c : CNode E O}
    (h : alookup t.children a = some c) : sizeOf c < sizeOf t := by
  obtain ⟨d, cs⟩ := t
  have hmem : (a, c) ∈ cs := alookup_mem h
  have h1 : sizeOf (a, c) < sizeOf cs := List.sizeOf_lt_of_mem hmem
  have h2 : sizeOf c < sizeOf (a, c) := by
    simp only [Prod.mk.sizeOf_spec]
    omega
  have h3 : sizeOf cs < sizeOf (CNode.mk d cs) := by
    simp only [CNode.mk.sizeOf_spec]
    omega
  have hch : (CNode.mk d cs).children = cs := rfl
  rw [hch] at h
  omega

/-- `MCTS.select_node_to_expand(from_node)`: starting at the root, while the
current node is not terminal ask the selection policy for an action; `None`
means "expand here" and stops; otherwise step into the child stored under the
action (`node.step(action)`, whose `KeyError`/`UnexpandedAction` on a missing
child is `none` here).  Returns the root-to-node path of the selected
node. -/
def descend (sel : CNode E O → Option ℕ) (t : CNode E O) : Option (List ℕ) :=
  if t.data.terminal then some []
  else
    match sel t with
    | none => some []
    | some a =>
      match _h : alookup t.children a with
      | none => none
      | some c => (descend sel c).map (fun p => a :: p)
termination_by sizeOf t
decreasing_by exact sizeOf_lookup_lt _h

/-- One iteration of the `while from_node.visits < iterations` loop of
`MCTS.build_tree`: select a node to expand; if it is terminal set its value
evaluation to `0` and back up `0` from it; otherwise expand the action chosen
by the expansion policy (`handle_single`), evaluate the fresh child with the
value function, store the evaluation on the child and back up from the child.
Any `KeyError` / failed `assert` is `none`. -/
def searchStep (γ : ℚ) (sel : CNode E O → Option ℕ) (expPol : CNode E O → ℕ)
    (valueFn : CNode E O → ℚ) (estep : E → ℕ → E × O × ℚ × Bool × Bool)
    (root : CNode E O) : Option (CNode E O) :=
  match descend sel root with
  | none => none
  | some p =>
    match getNode root p with
    | none => none
    | some n =>
      if n.data.terminal then
        match modifyAt (setVal 0) root p with
        | none => none
        | some r1 =>
          match backup γ 0 1 r1 p with
          | none => none
          | some (r2, _) => some r2
      else
        let a := expPol n
        match expandNode estep n a with
        | none => none
        | some n' =>
          match modifyAt (fun _ => n') root p with
          | none => none
          | some r1 =>
            match getNode r1 (p ++ [a]) with
            | none => none
            | some c =>
              let v := valueFn c
              match modifyAt (setVal v) r1 (p ++ [a]) with
              | none => none
              | some r2 =>
                match backup γ v 1 r2 (p ++ [a]) with
                | none => none
                | some (r3, _) => some r3

/-- `MCTS.build_tree(from_node, iterations)`: run `searchStep` while
`from_node.visits < iterations`.  The loop is embedded with explicit fuel;
`buildTree` with enough fuel (any `fuel ≥ iterations − from_node.visits`)
is the loop itself, and `none` means the fuel ran out or an iteration
failed. -/
def buildTree (γ : ℚ) (sel : CNode E O → Option ℕ) (expPol : CNode E O → ℕ)
    (valueFn : CNode E O → ℚ) (estep : E → ℕ → E × O × ℚ × Bool × Bool)
    (iterations : ℕ) : ℕ → CNode E O → Option (CNode E O)
  | fuel, t =>
    if t.data.visits < iterations then
      match fuel with
      | 0 => none
      | fuel' + 1 =>
        match searchStep γ sel expPol valueFn estep t with
        | none => none
        | some t' => buildTree γ sel expPol valueFn estep iterations fuel' t'
    else some t

/-- `MCTS.search(env, iterations, obs, reward)`: deep-copy the caller's
environment into a fresh root whose constructor defaults are `visits = 0`,
`subtree_sum = 0`, `terminal = false` (spec §4.5), evaluate the root, store
the evaluation, back up from the root, and run `build_tree`.  `A` is
`env.action_space.n`; the fuel `iterations` is enough for the loop to reach
its condition (the root starts with one visit). -/
def search (γ : ℚ) (sel : CNode E O → Option ℕ) (expPol : CNode E O → ℕ)
    (valueFn : CNode E O → ℚ) (estep : E → ℕ → E × O × ℚ × Bool × Bool)
    (A : ℕ) (env : E) (iterations : ℕ) (obs : O) (reward : ℚ) :
    Option (CNode E O) :=
  let root : CNode E O := .mk ⟨some env, reward, 0, 0, 0, false, some obs, A⟩ []
  let v := valueFn root
  let root' := setVal v root
  match backup γ v 1 root' [] with
  | none => none
  | some (r, _) => buildTree γ sel expPol valueFn estep iterations iterations r

/-- The number of unexpanded actions of a node: actions in `[0, A)` without a
child. -/
def unexpCount (t : CNode E O) : ℕ :=
  ((List.range t.data.A).filter (fun b => b ∉ akeys t.children)).length

/-- The invariant the driver maintains on every node of the search tree:
uniform action-space size (one `gym.spaces.Discrete` per tree) and an
environment snapshot present on every node that is not fully expanded (spec
§3, `env_snapshot`). -/
def Inv (A : ℕ) (t : CNode E O) : Prop :=
  ∀ q s, getNode t q = some s →
    s.data.A = A ∧ (¬ s.fullyExpanded → s.data.env.isSome)

/-- Contract of a selection policy, satisfied by the reference `UCB`: a
returned action always has a child (so `node.step(action)` cannot fail), and
`None` ("expand here") is only returned on nodes that are not fully
expanded. -/
def SelOK (A : ℕ) (sel : CNode E O → Option ℕ) : Prop :=
  ∀ n : CNode E O, n.data.A = A →
    (∀ a, sel n = some a → (alookup n.children a).isSome) ∧
    (sel n = none → ¬ n.fullyExpanded)

/-- Contract of a single-action expansion policy, satisfied by
`DefaultExpansionPolicy`: on a non-fully-expanded node it picks an action
with no child yet. -/
def ExpOK (A : ℕ) (expPol : CNode E O → ℕ) : Prop :=
  ∀ n : CNode E O, n.data.A = A → ¬ n.fullyExpanded →
    alookup n.children (expPol n) = none

/-! ### Concrete core instances used to instantiate the theorems -/

/-- An environment whose every step terminates with reward `1` (a terminal
root state: any action from it ends the episode at once). -/
def cEstepTerm : Unit → ℕ → Unit × Unit × ℚ × Bool × Bool :=
  fun _ _ => ((), (), 1, true, false)

/-- An environment whose every step terminates with reward `-1`. -/
def cEstepNeg : Unit → ℕ → Unit × Unit × ℚ × Bool × Bool :=
  fun _ _ => ((), (), -1, true, false)

/-- A selection policy in the shape of `UCB`: "expand here" unless fully
expanded, otherwise a stored action. -/
def cSel : CNode Unit Unit → Option ℕ := fun n =>
  match n.children with
  | [] => none
  | (k, _) :: _ => if n.children.length = n.data.A then some k else none

/-- An expansion policy that always picks an action without a child (one
larger than every stored key), as `DefaultExpansionPolicy` guarantees on
non-fully-expanded nodes. -/
def cExp : CNode Unit Unit → ℕ := fun n => (akeys n.children).foldr max 0 + 1

/-- The `Zero` value estimator: the base `MCTS.value_function` returns 0. -/
def cVal : CNode Unit Unit → ℚ := fun _ => 0

/-- A childless single-action node with reward `1`. -/
def wSolo : CNode Unit Unit := .mk ⟨some (), 1, 3, 7, 0, false, none, 1⟩ []

/-- A single-action leaf with reward `2`. -/
def wLeaf : CNode Unit Unit := .mk ⟨none, 2, 1, 5, 0, false, none, 1⟩ []

/-- A single-action root with reward `1` and the child `wLeaf` under `0`. -/
def wRoot : CNode Unit Unit := .mk ⟨some (), 1, 3, 7, 0, false, none, 1⟩ [(0, wLeaf)]

/-- A two-action node holding an environment snapshot and one child. -/
def wExpandable : CNode Unit Unit :=
  .mk ⟨some (), 0, 4, 2, 0, false, some (), 2⟩ [(1, wLeaf)]

end Core

/-! ## Definitions: `src/policies/policies.py` (namespace `Policies`)

`PolicyDistribution.softmaxed_distribution` works on the core `Node`
(`policies.py` imports it from `core.node`) and returns a
`torch.distributions.Categorical`; a categorical distribution is embedded as
its probability vector.  `Categorical(probs=p)` normalises `p` by its sum;
`Categorical(logits=l)` applies softmax.  The abstract method `self._probs`
is a parameter `pprobs`, and `self.temperature` (`None`, `0.0`, or positive)
is an `Option ℝ`. -/

namespace Policies

/-- `torch.distributions.Categorical(probs=p)`: the stored probabilities are
`p` normalised by its sum. -/
noncomputable def categoricalProbs (p : List ℝ) : List ℝ :=
  p.map (fun x => x / p.sum)

/-- `torch.distributions.Categorical(logits=l)`: softmax of the logits. -/
noncomputable def categoricalLogits (l : List ℝ) : List ℝ :=
  l.map (fun x => Real.exp x / (l.map Real.exp).sum)

/-- `self_prob`: `probs.sum() / (node.visits - 1)` — torch tensor
arithmetic on the visit counter. -/
noncomputable def self_prob {E O : Type} (t : Core.CNode E O) (probs : List ℝ) : ℝ :=
  probs.sum / ((t.data.visits : ℝ) - 1)

/-- `add_self_to_probs`: append the self probability as one extra slot. -/
noncomputable def add_self_to_probs {E O : Type} (t : Core.CNode E O)
    (probs : List ℝ) : List ℝ :=
  probs ++ [self_prob t probs]

/-- `th.max` of a nonempty tensor. -/
def tmax (l : List ℝ) : ℝ :=
  match l with
  | [] => 0
  | x :: xs => xs.foldr max x

/-- `PolicyDistribution.softmaxed_distribution(node, include_self)`: for a
leaf with `include_self` the result is the vector `zeros(A + 1)` with the
last slot set to `1`; otherwise the `_probs` vector goes through the
temperature dispatch (`None` → raw relative probabilities, `0` → uniform
over the argmax set, else softmax of `probs / T`), with the self slot
appended when `include_self`. -/
noncomputable def softmaxed_distribution {E O : Type}
    (pprobs : Core.CNode E O → List ℝ) (temperature : Option ℝ)
    (t : Core.CNode E O) (include_self : Bool) : List ℝ :=
  if include_self ∧ t.children.length = 0 then
    categoricalProbs (List.replicate t.data.A (0 : ℝ) ++ [1])
  else
    match temperature with
    | none =>
      if include_self then categoricalProbs (add_self_to_probs t (pprobs t))
      else categoricalProbs (pprobs t)
    | some τ =>
      if τ = 0 then
        let amax := (pprobs t).map (fun x => if x = tmax (pprobs t) then (1 : ℝ) else 0)
        if include_self then categoricalProbs (add_self_to_probs t amax)
        else categoricalProbs amax
      else
        let dist := categoricalLogits ((pprobs t).map (fun x => x / τ))
        if include_self then categoricalProbs (add_self_to_probs t dist)
        else dist

end Policies

/-! ## Lemmas and claim theorems: `alphazero.py` node operations -/

namespace AZ

@[simp] theorem Node.data_mk (d : NodeData) (cs : List (ℕ × Node)) :
    (Node.mk d cs).data = d := rfl

@[simp] theorem Node.children_mk (d : NodeData) (cs : List (ℕ × Node)) :
    (Node.mk d cs).children = cs := rfl

/-- C5 (amended): `default_value()` returns `subtree_value / visits` when
`visits > 0` and raises `ZeroDivisionError` (embedded as `none`) when
`visits == 0`; in `alphazero.py` nodes are created with `visits = 1`, so the
failing case is unreachable in normal operation. -/
theorem claim_C5 (t : Node) :
    (t.data.visits ≠ 0 →
      t.default_value = some (t.data.subtree_value / t.data.visits)) ∧
    (t.data.visits = 0 → t.default_value = none) := by
  constructor
  · intro h; simp [Node.default_value, h]
  · intro h; simp [Node.default_value, h]

/-- C5 witness: on a node with 5 visits and subtree value 10, `default_value`
returns `10 / 5 = 2`. -/
theorem claim_C5_witness : leaf1.default_value = some 2 := by
  have h := (claim_C5 leaf1).1 (by decide)
  rw [h]; norm_num [leaf1]

/-- C5 counterexample: on a node with `visits == 0` the division faults
(`none`) instead of returning `0`, contradicting the claim that the division
never faults and yields `0`. -/
theorem claim_C5_counterexample :
    visits0.data.visits = 0 ∧ visits0.default_value = none ∧
      visits0.default_value ≠ some 0 := by
  refine ⟨rfl, rfl, by simp [visits0, Node.default_value]⟩

/-- C3 (amended): `Node.step(a)` returns the child stored under `a` after
incrementing that child's `visits` by one, raises `KeyError` when `a` has no
child, and changes nothing else: the parent's own data, the parent's set of
child keys, every sibling, and every other statistic of the returned child
are unchanged. -/
theorem claim_C3 (t : Node) (a : ℕ) :
    (t.step a = none ↔ alookup t.children a = none) ∧
    (∀ t' c', t.step a = some (t', c') →
      ∃ c, alookup t.children a = some c ∧
        c'.data = { c.data with visits := c.data.visits + 1 } ∧
        c'.children = c.children ∧
        t'.data = t.data ∧
        alookup t'.children a = some c' ∧
        (∀ b, b ≠ a → alookup t'.children b = alookup t.children b) ∧
        akeys t'.children = akeys t.children) := by
  constructor
  · unfold Node.step
    cases h : alookup t.children a with
    | none => simp
    | some c => cases c; simp
  · intro t' c' h
    unfold Node.step at h
    cases hl : alookup t.children a with
    | none => rw [hl] at h; exact absurd h (by simp)
    | some c =>
      obtain ⟨cd, ccs⟩ := c
      rw [hl] at h
      simp only [Option.some.injEq, Prod.mk.injEq] at h
      obtain ⟨ht', hc'⟩ := h
      subst ht'
      subst hc'
      refine ⟨Node.mk cd ccs, rfl, rfl, rfl, rfl, ?_, ?_, ?_⟩
      · simp [ainsert_self]
      · intro b hb
        exact ainsert_other _ _ _ _ hb
      · refine akeys_ainsert_mem _ _ _ ?_
        rw [← alookup_isSome_iff_mem, hl]; rfl

/-- C3 witness: stepping `parent0` into action 0 returns the stored child with
its visit counter bumped from 5 to 6 and leaves everything else unchanged. -/
theorem claim_C3_witness :
    ∃ c, alookup parent0.children 0 = some c ∧
      leaf1'.data = { c.data with visits := c.data.visits + 1 } ∧
      leaf1'.children = c.children ∧
      parent0'.data = parent0.data ∧
      alookup parent0'.children 0 = some leaf1' ∧
      (∀ b, b ≠ 0 → alookup parent0'.children b = alookup parent0.children b) ∧
      akeys parent0'.children = akeys parent0.children :=
  (claim_C3 parent0 0).2 parent0' leaf1' rfl

/-- C3 counterexample: `step` does mutate statistics — the returned child's
`visits` counter goes from 5 to 6, contradicting the claim that the visits of
every node equal their values before the call. -/
theorem claim_C3_counterexample :
    leaf1.data.visits = 5 ∧
      (parent0.step 0).map (fun pc => pc.2.data.visits) = some 6 := ⟨rfl, rfl⟩

/-- C4 (amended): on a node that is not fully expanded,
`sample_unexplored_action()` returns an action `a ∈ [0, A)` that has no child;
on a fully expanded node it does not fail: following gymnasium's
`Discrete.sample(mask)` contract (quoted in the method's docstring), it
returns `space.start`, i.e. action `0`.  The hypotheses say the child table's
keys are distinct valid actions, which holds for every tree the search
builds. -/
theorem claim_C4 (t : Node) (pick : ℕ)
    (hnd : (akeys t.children).Nodup)
    (hsub : ∀ k ∈ akeys t.children, k < t.data.n) :
    (¬ t.fullyExpanded →
      t.sample_unexplored_action pick < t.data.n ∧
      t.sample_unexplored_action pick ∉ akeys t.children) ∧
    (t.fullyExpanded → t.sample_unexplored_action pick = 0) := by
  have hkeylen : (akeys t.children).length = t.children.length := by
    simp [akeys]
  have hcard : (akeys t.children).toFinset.card = t.children.length := by
    rw [List.toFinset_card_of_nodup hnd, hkeylen]
  have hsubF : (akeys t.children).toFinset ⊆ Finset.range t.data.n := by
    intro a ha
    rw [List.mem_toFinset] at ha
    exact Finset.mem_range.mpr (hsub a ha)
  constructor
  · intro hne
    have hvne : ¬ ((List.range t.data.n).filter
        (fun a => a ∉ akeys t.children) = []) := by
      intro h0
      have hall : ∀ a < t.data.n, a ∈ akeys t.children := by
        intro a ha
        by_contra hmem
        have hmm : a ∈ (List.range t.data.n).filter
            (fun a => a ∉ akeys t.children) := by
          rw [List.mem_filter]
          exact ⟨List.mem_range.mpr ha, by simpa using hmem⟩
        rw [h0] at hmm
        simp at hmm
      have hsup : Finset.range t.data.n ⊆ (akeys t.children).toFinset := by
        intro a ha
        rw [List.mem_toFinset]
        exact hall a (Finset.mem_range.mp ha)
      have : t.data.n ≤ t.children.length := by
        have := Finset.card_le_card hsup
        rwa [Finset.card_range, hcard] at this
      have hle : t.children.length ≤ t.data.n := by
        have := Finset.card_le_card hsubF
        rwa [Finset.card_range, hcard] at this
      exact hne (Nat.le_antisymm hle this)
    unfold Node.sample_unexplored_action
    simp only [if_neg hvne]
    set valid := (List.range t.data.n).filter (fun a => a ∉ akeys t.children)
      with hv
    have hlen : 0 < valid.length := List.length_pos.mpr hvne
    have hidx : pick % valid.length < valid.length := Nat.mod_lt _ hlen
    rw [List.getD_eq_getElem _ _ hidx]
    have hmem : valid[pick % valid.length] ∈ valid := List.getElem_mem _
    have hmem' : valid[pick % valid.length] ∈
        (List.range t.data.n).filter (fun a => a ∉ akeys t.children) := hmem
    rw [List.mem_filter] at hmem'
    exact ⟨List.mem_range.mp hmem'.1, by simpa using hmem'.2⟩
  · intro hfe
    have hveq : (List.range t.data.n).filter
        (fun a => a ∉ akeys t.children) = [] := by
      rw [List.filter_eq_nil_iff]
      intro a ha
      have hset : (akeys t.children).toFinset = Finset.range t.data.n :=
        Finset.eq_of_subset_of_card_le hsubF
          (by rw [Finset.card_range, hcard]; exact le_of_eq hfe.symm)
      simp only [decide_eq_true_eq, not_not]
      rw [← List.mem_toFinset, hset]
      exact ha
    unfold Node.sample_unexplored_action
    simp only [if_pos hveq]

/-- C4 witness: on the non-fully-expanded node `parent0` (two actions, child
only under 0), the sampled action is a valid unexpanded action. -/
theorem claim_C4_witness :
    (¬ parent0.fullyExpanded →
      parent0.sample_unexplored_action 7 < parent0.data.n ∧
      parent0.sample_unexplored_action 7 ∉ akeys parent0.children) ∧
    (parent0.fullyExpanded → parent0.sample_unexplored_action 7 = 0) :=
  claim_C4 parent0 7 (by decide) (by decide)

/-- C4 counterexample: on the fully expanded node `fullnode` the method does
not fail: it returns action `0`, which is even an already-expanded action —
contradicting the claim that it fails with `FullyExpanded` rather than
returning an action. -/
theorem claim_C4_counterexample :
    fullnode.fullyExpanded ∧
      fullnode.sample_unexplored_action 0 = 0 ∧
      0 ∈ akeys fullnode.children := by
  refine ⟨by decide, by decide, by decide⟩

/-- C2 (amended): the UCB policy returns "expand here" (`None`) on every node
that is not fully expanded; on a fully expanded node with at least one child
it returns an expanded action whose score
`child.default_value() + c * sqrt(n.visits / child.visits)` is maximal, and
among several maximisers it returns the one whose child was inserted first
(Python `max` keeps the first maximum over dict insertion order) — which is
the lowest action index only when the children were expanded in index
order. -/
theorem claim_C2 (c : ℝ) (t : Node) :
    (¬ t.fullyExpanded → UCBcall c t = none) ∧
    (t.fullyExpanded → t.children ≠ [] →
      ∃ m, UCBcall c t = some m ∧ m ∈ akeys t.children ∧
        (∀ b ∈ akeys t.children, ucbScore c t b ≤ ucbScore c t m) ∧
        FirstArgmax (ucbScore c t) (akeys t.children) m) := by
  constructor
  · intro h
    unfold UCBcall
    rw [if_pos h]
  · intro hfe hne
    have hkne : akeys t.children ≠ [] := by
      intro h0
      exact hne (List.map_eq_nil_iff.mp h0)
    obtain ⟨m, hm⟩ := pymaxKey_of_ne_nil (ucbScore c t) hkne
    obtain ⟨hfa, hle⟩ := pymaxKey_firstArgmax _ hm
    refine ⟨m, ?_, ?_, hle, hfa⟩
    · unfold UCBcall
      rw [if_neg (not_not.mpr hfe)]
      exact hm
    · obtain ⟨l₁, l₂, hdec, -, -⟩ := hfa
      rw [hdec]
      exact List.mem_append.mpr (Or.inr (List.mem_cons_self _ _))

/-- C2 witness: on the fully expanded node `fullnode` the policy returns the
stored action `0`, a maximiser of the UCB score. -/
theorem claim_C2_witness :
    ∃ m, UCBcall 1 fullnode = some m ∧ m ∈ akeys fullnode.children ∧
      (∀ b ∈ akeys fullnode.children,
        ucbScore 1 fullnode b ≤ ucbScore 1 fullnode m) ∧
      FirstArgmax (ucbScore 1 fullnode) (akeys fullnode.children) m :=
  (claim_C2 1 fullnode).2 (by decide) (by simp [fullnode])

/-- C2 counterexample: on `tieNode` the two actions score identically, yet
the policy returns action `1` — the first-inserted child — not the lowest
action index `0`, contradicting the tie-break stated in the claim. -/
theorem claim_C2_counterexample :
    tieNode.fullyExpanded ∧
      ucbScore 1 tieNode 0 = ucbScore 1 tieNode 1 ∧
      UCBcall 1 tieNode = some 1 := by
  have hsc : ucbScore 1 tieNode 0 = ucbScore 1 tieNode 1 := rfl
  refine ⟨by decide, hsc, ?_⟩
  unfold UCBcall
  rw [if_neg (by decide)]
  show pymaxKey (ucbScore 1 tieNode) [1, 0] = some 1
  unfold pymaxKey
  simp only [List.foldl_cons, List.foldl_nil]
  rw [if_neg (by rw [hsc]; exact lt_irrefl _)]

end AZ

/-! ## Lemmas: core tree operations (`src/mcts.py`) -/

namespace Core

variable {E O : Type}

@[simp] theorem cnode_data_mk (d : NodeData E O) (cs : List (ℕ × CNode E O)) :
    (CNode.mk d cs).data = d := rfl

@[simp] theorem cnode_children_mk (d : NodeData E O) (cs : List (ℕ × CNode E O)) :
    (CNode.mk d cs).children = cs := rfl

@[simp] theorem getNode_nil (t : CNode E O) : getNode t [] = some t := rfl

theorem getNode_cons (t : CNode E O) (a : ℕ) (p : List ℕ) :
    getNode t (a :: p) = match alookup t.children a with
      | none => none
      | some c => getNode c p := rfl

theorem getNode_cons_of_lookup {t c : CNode E O} {a : ℕ} (p : List ℕ)
    (h : alookup t.children a = some c) :
    getNode t (a :: p) = getNode c p := by
  rw [getNode_cons, h]

theorem getNode_append (t : CNode E O) (p q : List ℕ) :
    getNode t (p ++ q) = match getNode t p with
      | none => none
      | some s => getNode s q := by
  induction p generalizing t with
  | nil => simp
  | cons a p ih =>
    rw [List.cons_append, getNode_cons, getNode_cons]
    cases alookup t.children a with
    | none => rfl
    | some c => exact ih c

theorem getNode_append_of_get {t s : CNode E O} {p : List ℕ}
    (h : getNode t p = some s) (q : List ℕ) :
    getNode t (p ++ q) = getNode s q := by
  rw [getNode_append, h]

theorem getNode_isSome_of_prefix {t : CNode E O} {p q : List ℕ}
    (hq : q <+: p) (h : (getNode t p).isSome) : (getNode t q).isSome := by
  obtain ⟨r, hr⟩ := hq
  subst hr
  rw [getNode_append] at h
  cases hg : getNode t q with
  | none => rw [hg] at h; simp at h
  | some s => rfl

/-- What one `backup` call does, node by node: the call succeeds on a valid
path; every node on the parent chain from `start` (the end of `p`) to the
root — the nodes at prefixes `q` of `p` — gets the accumulator value `pathG`
assigns to it added to `subtree_sum` and `nv` added to `visits`, with its
child keys untouched; and every node off that chain keeps its data and child
keys. -/
theorem backup_go (γ v : ℚ) (nv : ℕ) :
    ∀ (p : List ℕ) (t : CNode E O), (getNode t p).isSome →
      ∃ t' g, backup γ v nv t p = some (t', g) ∧ pathG γ v t p = some g ∧
        (∀ q, q <+: p → ∀ s0, getNode t q = some s0 →
          ∃ s1 gq, getNode t' q = some s1 ∧
            pathG γ v s0 (p.drop q.length) = some gq ∧
            s1.data = bump gq nv s0.data ∧
            akeys s1.children = akeys s0.children) ∧
        (∀ q, ¬ q <+: p →
          (getNode t' q).map CNode.data = (getNode t q).map CNode.data ∧
          (getNode t' q).map (fun s => akeys s.children) =
            (getNode t q).map (fun s => akeys s.children)) := by
  intro p
  induction p with
  | nil =>
    intro t _
    obtain ⟨d, cs⟩ := t
    refine ⟨_, _, rfl, rfl, ?_, ?_⟩
    · intro q hq s0 hs0
      have hqn : q = [] := List.eq_nil_of_prefix_nil hq
      subst hqn
      rw [getNode_nil, Option.some.injEq] at hs0
      subst hs0
      exact ⟨_, γ * v + d.reward, rfl, rfl, rfl, rfl⟩
    · intro q hq
      cases q with
      | nil => exact absurd List.nil_prefix hq
      | cons b q' => exact ⟨rfl, rfl⟩
  | cons a p ih =>
    intro t hsome
    obtain ⟨d, cs⟩ := t
    rw [getNode_cons] at hsome
    cases hl : alookup cs a with
    | none => rw [cnode_children_mk, hl] at hsome; simp at hsome
    | some c =>
      rw [cnode_children_mk, hl] at hsome
      obtain ⟨c', gc, hbc, hpg, hpre, hoff⟩ := ih c hsome
      have hmem : a ∈ akeys cs := by
        rw [← alookup_isSome_iff_mem, hl]; rfl
      refine ⟨CNode.mk (bump (γ * gc + d.reward) nv d) (ainsert cs a c'),
        γ * gc + d.reward, ?_, ?_, ?_, ?_⟩
      · show backup γ v nv (CNode.mk d cs) (a :: p) = _
        simp only [backup, hl, hbc]
      · show pathG γ v (CNode.mk d cs) (a :: p) = _
        simp only [pathG, cnode_children_mk, cnode_data_mk, hl, hpg]
      · intro q hq s0 hs0
        cases q with
        | nil =>
          rw [getNode_nil, Option.some.injEq] at hs0
          subst hs0
          refine ⟨_, γ * gc + d.reward, rfl, ?_, rfl, ?_⟩
          · simp only [List.length_nil, List.drop_zero]
            simp only [pathG, cnode_children_mk, cnode_data_mk, hl, hpg]
          · exact akeys_ainsert_mem _ _ _ hmem
        | cons b q' =>
          obtain ⟨hb, hq'⟩ := List.cons_prefix_cons.mp hq
          rw [hb] at hs0 ⊢
          rw [getNode_cons_of_lookup q' (show alookup (CNode.mk d cs).children a = some c
            from by rw [cnode_children_mk]; exact hl)] at hs0
          obtain ⟨s1, gq, hg1, hg2, hg3, hg4⟩ := hpre q' hq' s0 hs0
          refine ⟨s1, gq, ?_, ?_, hg3, hg4⟩
          · rw [getNode_cons_of_lookup q' (show alookup (CNode.mk (bump (γ * gc + d.reward) nv d)
              (ainsert cs a c')).children a = some c' from by
                rw [cnode_children_mk]; exact ainsert_self cs a c')]
            exact hg1
          · simpa using hg2
      · intro q hq
        cases q with
        | nil => exact absurd List.nil_prefix hq
        | cons b q' =>
          by_cases hba : b = a
          · rw [hba] at hq ⊢
            have hq' : ¬ q' <+: p := fun h => hq (List.cons_prefix_cons.mpr ⟨rfl, h⟩)
            have h1 := hoff q' hq'
            rw [getNode_cons_of_lookup q' (show alookup (CNode.mk (bump (γ * gc + d.reward) nv d)
              (ainsert cs a c')).children a = some c' from by
                rw [cnode_children_mk]; exact ainsert_self cs a c'),
              getNode_cons_of_lookup q' (show alookup (CNode.mk d cs).children a = some c
                from by rw [cnode_children_mk]; exact hl)]
            exact h1
          · rw [getNode_cons, getNode_cons, cnode_children_mk, cnode_children_mk,
              ainsert_other cs a b c' hba]
            exact ⟨rfl, rfl⟩

/-- C1: a backup from the node at path `p` with leaf estimate `v` and
discount `γ` walks the parent chain from that node to the root; each node on
the chain (the node at each prefix `q` of `p`, including the start node and
the root) receives `g` into `subtree_sum` and `1` into `visits`, where `g`
obeys the claimed recurrence — `pathG` assigns `γ·v + reward` at the start
node and `γ·g + reward` at each ancestor, i.e. `g` is initialised to `v` and
updated to `γ·g + n.reward` before the node's statistics are touched — and
the statistics of every node off the chain are unchanged. -/
theorem claim_C1 (γ v : ℚ) (p : List ℕ) (t : CNode E O)
    (h : (getNode t p).isSome) :
    ∃ t' g, backup γ v 1 t p = some (t', g) ∧
      (∀ q, q <+: p → ∀ s0, getNode t q = some s0 →
        ∃ s1 gq, getNode t' q = some s1 ∧
          pathG γ v s0 (p.drop q.length) = some gq ∧
          s1.data.subtree_sum = s0.data.subtree_sum + gq ∧
          s1.data.visits = s0.data.visits + 1 ∧
          s1.data.reward = s0.data.reward ∧
          s1.data.value_evaluation = s0.data.value_evaluation ∧
          s1.data.env = s0.data.env ∧
          s1.data.terminal = s0.data.terminal ∧
          akeys s1.children = akeys s0.children) ∧
      (∀ q, ¬ q <+: p →
        (getNode t' q).map CNode.data = (getNode t q).map CNode.data) := by
  obtain ⟨t', g, hb, _, hpre, hoff⟩ := backup_go γ v 1 p t h
  refine ⟨t', g, hb, ?_, fun q hq => (hoff q hq).1⟩
  intro q hq s0 hs0
  obtain ⟨s1, gq, h1, h2, h3, h4⟩ := hpre q hq s0 hs0
  exact ⟨s1, gq, h1, h2, by rw [h3]; rfl, by rw [h3]; rfl, by rw [h3]; rfl,
    by rw [h3]; rfl, by rw [h3]; rfl, by rw [h3]; rfl, h4⟩

/-- C1 witness: backing up `v = 4` with `γ = 1/2` from the child at `[0]` of
the two-node chain `wRoot`. -/
theorem claim_C1_witness :
    ∃ t' g, backup (1/2) 4 1 wRoot [0] = some (t', g) ∧
      (∀ q, q <+: [0] → ∀ s0, getNode wRoot q = some s0 →
        ∃ s1 gq, getNode t' q = some s1 ∧
          pathG (1/2) 4 s0 (List.drop q.length [0]) = some gq ∧
          s1.data.subtree_sum = s0.data.subtree_sum + gq ∧
          s1.data.visits = s0.data.visits + 1 ∧
          s1.data.reward = s0.data.reward ∧
          s1.data.value_evaluation = s0.data.value_evaluation ∧
          s1.data.env = s0.data.env ∧
          s1.data.terminal = s0.data.terminal ∧
          akeys s1.children = akeys s0.children) ∧
      (∀ q, ¬ q <+: [0] →
        (getNode t' q).map CNode.data = (getNode wRoot q).map CNode.data) :=
  claim_C1 (1/2) 4 [0] wRoot (by rfl)

/-- Nonnegative discount, leaf estimate and rewards make every accumulator
value of the backup recurrence nonnegative. -/
theorem pathG_nonneg (γ v : ℚ) (hγ : 0 ≤ γ) (hv : 0 ≤ v) :
    ∀ (p : List ℕ) (t : CNode E O),
      (∀ q s, getNode t q = some s → 0 ≤ s.data.reward) →
      ∀ g, pathG γ v t p = some g → 0 ≤ g := by
  intro p
  induction p with
  | nil =>
    intro t hr g hg
    unfold pathG at hg
    rw [Option.some.injEq] at hg
    subst hg
    have h0 : 0 ≤ t.data.reward := hr [] t (getNode_nil t)
    positivity
  | cons a p ih =>
    intro t hr g hg
    unfold pathG at hg
    cases hl : alookup t.children a with
    | none => rw [hl] at hg; simp at hg
    | some c =>
      rw [hl] at hg
      change (match pathG γ v c p with
        | none => none
        | some gg => some (γ * gg + t.data.reward)) = some g at hg
      cases hc : pathG γ v c p with
      | none => rw [hc] at hg; simp at hg
      | some gc =>
        rw [hc, Option.some.injEq] at hg
        subst hg
        have hgc : 0 ≤ gc := by
          refine ih c ?_ gc hc
          intro q s hq
          exact hr (a :: q) s (by rw [getNode_cons_of_lookup q hl]; exact hq)
        have h0 : 0 ≤ t.data.reward := hr [] t (getNode_nil t)
        positivity

/-- C6 (amended): `visits` is monotonically non-decreasing at every node
under backup, for every environment; `subtree_sum` is monotonically
non-decreasing whenever the discount, the leaf estimate and all rewards in
the tree are nonnegative — with negative rewards a backup can decrease
`subtree_sum`. -/
theorem claim_C6 (γ v : ℚ) (p : List ℕ) (t : CNode E O)
    (h : (getNode t p).isSome) :
    ∃ t' g, backup γ v 1 t p = some (t', g) ∧
      (∀ q s0 s1, getNode t q = some s0 → getNode t' q = some s1 →
        s0.data.visits ≤ s1.data.visits) ∧
      (0 ≤ γ → 0 ≤ v → (∀ q s, getNode t q = some s → 0 ≤ s.data.reward) →
        ∀ q s0 s1, getNode t q = some s0 → getNode t' q = some s1 →
          s0.data.subtree_sum ≤ s1.data.subtree_sum) := by
  obtain ⟨t', g, hb, _, hpre, hoff⟩ := backup_go γ v 1 p t h
  refine ⟨t', g, hb, ?_, ?_⟩
  · intro q s0 s1 hs0 hs1
    by_cases hq : q <+: p
    · obtain ⟨s1', gq, h1, h2, h3, _⟩ := hpre q hq s0 hs0
      rw [hs1, Option.some.injEq] at h1
      subst h1
      rw [h3]
      simp [bump]
    · have h1 := (hoff q hq).1
      rw [hs0, hs1] at h1
      simp only [Option.map_some'] at h1
      rw [Option.some.injEq] at h1
      rw [h1]
  · intro hγ hv hr q s0 s1 hs0 hs1
    by_cases hq : q <+: p
    · obtain ⟨s1', gq, h1, h2, h3, _⟩ := hpre q hq s0 hs0
      rw [hs1, Option.some.injEq] at h1
      subst h1
      have hgq : 0 ≤ gq := by
        refine pathG_nonneg γ v hγ hv _ s0 ?_ gq h2
        intro r s hrs
        exact hr (q ++ r) s (by rw [getNode_append_of_get hs0]; exact hrs)
      rw [h3]
      simp only [bump]
      linarith
    · have h1 := (hoff q hq).1
      rw [hs0, hs1] at h1
      simp only [Option.map_some'] at h1
      rw [Option.some.injEq] at h1
      rw [h1]

/-- C6 witness: a backup of `v = 0` with `γ = 1` on the childless node
`wSolo`, whose reward is nonnegative: neither counter decreases. -/
theorem claim_C6_witness :
    ∃ t' g, backup 1 0 1 wSolo [] = some (t', g) ∧
      (∀ q s0 s1, getNode wSolo q = some s0 → getNode t' q = some s1 →
        s0.data.visits ≤ s1.data.visits) ∧
      (0 ≤ (1 : ℚ) → 0 ≤ (0 : ℚ) →
        (∀ q s, getNode wSolo q = some s → 0 ≤ s.data.reward) →
        ∀ q s0 s1, getNode wSolo q = some s0 → getNode t' q = some s1 →
          s0.data.subtree_sum ≤ s1.data.subtree_sum) :=
  claim_C6 1 0 [] wSolo (by rfl)

set_option maxRecDepth 8000 in
/-- C6 counterexample: continuing the same search from budget 1 to budget 2
on an environment whose one transition has reward `-1` strictly decreases the
root's `subtree_sum` from `0` to `-1`: with negative rewards `subtree_sum` is
not monotonically non-decreasing over the node's lifetime. -/
theorem claim_C6_counterexample :
    (search 1 cSel cExp cVal cEstepNeg 1 () 1 () 0).map
        (fun t => t.data.subtree_sum) = some 0 ∧
      (search 1 cSel cExp cVal cEstepNeg 1 () 2 () 0).map
        (fun t => t.data.subtree_sum) = some (-1) ∧
      (-1 : ℚ) < 0 := by
  refine ⟨?_, ?_, by norm_num⟩ <;>
    simp [search, buildTree, searchStep, descend, getNode, modifyAt, backup,
      pathG, expandNode, setVal, cSel, cExp, cVal, cEstepNeg, alookup, ainsert,
      bump]

/-- What `modifyAt f` does at each node: the node at `p` becomes `f` of
itself (and the tree below it is `f`'s), nodes strictly above keep their data
and child keys, and nodes on other branches are untouched. -/
theorem modifyAt_go (f : CNode E O → CNode E O) :
    ∀ (p : List ℕ) (t n : CNode E O), getNode t p = some n →
      ∃ t', modifyAt f t p = some t' ∧
        (∀ r, getNode t' (p ++ r) = getNode (f n) r) ∧
        (∀ q, q <+: p → q ≠ p → ∀ s0, getNode t q = some s0 →
          ∃ s1, getNode t' q = some s1 ∧ s1.data = s0.data ∧
            akeys s1.children = akeys s0.children) ∧
        (∀ q, ¬ q <+: p → ¬ p <+: q → getNode t' q = getNode t q) := by
  intro p
  induction p with
  | nil =>
    intro t n hn
    rw [getNode_nil, Option.some.injEq] at hn
    subst hn
    refine ⟨f t, rfl, fun r => by simp, ?_, ?_⟩
    · intro q hq hne _ _
      exact absurd (List.eq_nil_of_prefix_nil hq) hne
    · intro q _ hq2
      exact absurd List.nil_prefix hq2
  | cons a p ih =>
    intro t n hn
    obtain ⟨d, cs⟩ := t
    rw [getNode_cons] at hn
    cases hl : alookup cs a with
    | none => rw [cnode_children_mk, hl] at hn; simp at hn
    | some c =>
      rw [cnode_children_mk, hl] at hn
      obtain ⟨c', hmc, h1, h2, h3⟩ := ih c n hn
      have hmem : a ∈ akeys cs := by
        rw [← alookup_isSome_iff_mem, hl]; rfl
      refine ⟨CNode.mk d (ainsert cs a c'), ?_, ?_, ?_, ?_⟩
      · show modifyAt f (CNode.mk d cs) (a :: p) = _
        simp only [modifyAt, cnode_children_mk, hl, hmc, Option.map_some',
          cnode_data_mk]
      · intro r
        rw [List.cons_append,
          getNode_cons_of_lookup (p ++ r) (show alookup (CNode.mk d (ainsert cs a c')).children a
            = some c' from by rw [cnode_children_mk]; exact ainsert_self cs a c')]
        exact h1 r
      · intro q hq hne s0 hs0
        cases q with
        | nil =>
          rw [getNode_nil, Option.some.injEq] at hs0
          subst hs0
          exact ⟨CNode.mk d (ainsert cs a c'), rfl, rfl, by
            rw [cnode_children_mk, cnode_children_mk, akeys_ainsert_mem _ _ _ hmem]⟩
        | cons b q' =>
          obtain ⟨hb, hq'⟩ := List.cons_prefix_cons.mp hq
          rw [hb] at hs0 ⊢
          rw [getNode_cons_of_lookup q' (show alookup (CNode.mk d cs).children a = some c
            from by rw [cnode_children_mk]; exact hl)] at hs0
          have hne' : q' ≠ p := fun h => hne (by rw [hb, h])
          obtain ⟨s1, hg1, hg2, hg3⟩ := h2 q' hq' hne' s0 hs0
          refine ⟨s1, ?_, hg2, hg3⟩
          rw [getNode_cons_of_lookup q' (show alookup (CNode.mk d (ainsert cs a c')).children a
            = some c' from by rw [cnode_children_mk]; exact ainsert_self cs a c')]
          exact hg1
      · intro q hq1 hq2
        cases q with
        | nil => exact absurd List.nil_prefix hq1
        | cons b q' =>
          by_cases hba : b = a
          · rw [hba] at hq1 hq2 ⊢
            have hq1' : ¬ q' <+: p := fun h => hq1 (List.cons_prefix_cons.mpr ⟨rfl, h⟩)
            have hq2' : ¬ p <+: q' := fun h => hq2 (List.cons_prefix_cons.mpr ⟨rfl, h⟩)
            rw [getNode_cons_of_lookup q' (show alookup (CNode.mk d (ainsert cs a c')).children a
              = some c' from by rw [cnode_children_mk]; exact ainsert_self cs a c'),
              getNode_cons_of_lookup q' (show alookup (CNode.mk d cs).children a = some c
                from by rw [cnode_children_mk]; exact hl)]
            exact h3 q' hq1' hq2'
          · rw [getNode_cons, getNode_cons, cnode_children_mk, cnode_children_mk,
              ainsert_other cs a b c' hba]

/-- The number of child keys is the number of children. -/
theorem akeys_length {α : Type _} (l : List (ℕ × α)) : (akeys l).length = l.length :=
  List.length_map l Prod.fst

/-- A subtree of an invariant-satisfying tree satisfies the invariant. -/
theorem Inv_sub {A : ℕ} {t s : CNode E O} {q : List ℕ}
    (hInv : Inv A t) (hs : getNode t q = some s) : Inv A s := by
  intro r x hx
  exact hInv (q ++ r) x (by rw [getNode_append_of_get hs]; exact hx)

/-- `backup` preserves the driver invariant: it only changes `subtree_sum`
and `visits`, never an env snapshot, a child key, or the action-space
size. -/
theorem backup_Inv {γ v : ℚ} {nv : ℕ} {p : List ℕ} {t t' : CNode E O} {g : ℚ} {A : ℕ}
    (hs : (getNode t p).isSome)
    (hb : backup γ v nv t p = some (t', g))
    (hInv : Inv A t) : Inv A t' := by
  obtain ⟨t'', g', hb', _, hpre, hoff⟩ := backup_go γ v nv p t hs
  rw [hb, Option.some.injEq, Prod.mk.injEq] at hb'
  obtain ⟨ht'', _⟩ := hb'
  subst ht''
  intro q s hq
  by_cases hqp : q <+: p
  · have h0 : (getNode t q).isSome := getNode_isSome_of_prefix hqp hs
    cases hg0 : getNode t q with
    | none => rw [hg0] at h0; simp at h0
    | some s0 =>
      obtain ⟨s1, gq, hg1, _, hg3, hg4⟩ := hpre q hqp s0 hg0
      rw [hq, Option.some.injEq] at hg1
      subst hg1
      obtain ⟨hA, hE⟩ := hInv q s0 hg0
      constructor
      · rw [hg3]; exact hA
      · intro hfe
        have : ¬ s0.fullyExpanded := by
          intro h
          refine hfe ?_
          unfold CNode.fullyExpanded at h ⊢
          rw [← akeys_length, hg4, akeys_length, hg3]
          exact h
        rw [hg3]
        exact hE this
  · obtain ⟨hd, hk⟩ := hoff q hqp
    rw [hq] at hd hk
    cases hg0 : getNode t q with
    | none => rw [hg0] at hd; simp at hd
    | some s0 =>
      rw [hg0] at hd hk
      simp only [Option.map_some', Option.some.injEq] at hd hk
      obtain ⟨hA, hE⟩ := hInv q s0 hg0
      constructor
      · rw [hd]; exact hA
      · intro hfe
        have : ¬ s0.fullyExpanded := by
          intro h
          refine hfe ?_
          unfold CNode.fullyExpanded at h ⊢
          rw [← akeys_length, hk, akeys_length, hd]
          exact h
        rw [hd]
        exact hE this

/-- `select_node_to_expand` stops at a terminal node. -/
theorem descend_terminal {sel : CNode E O → Option ℕ} {t : CNode E O}
    (hterm : t.data.terminal = true) : descend sel t = some [] := by
  rw [descend, if_pos hterm]

/-- `select_node_to_expand` stops where the policy returns `None`. -/
theorem descend_expand_here {sel : CNode E O → Option ℕ} {t : CNode E O}
    (hterm : t.data.terminal = false) (hse : sel t = none) :
    descend sel t = some [] := by
  rw [descend, if_neg (by rw [hterm]; exact Bool.false_ne_true), hse]

/-- `select_node_to_expand` steps into the stored child of the selected
action and recurses. -/
theorem descend_step {sel : CNode E O → Option ℕ} {t c : CNode E O} {a : ℕ}
    (hterm : t.data.terminal = false) (hse : sel t = some a)
    (hl : alookup t.children a = some c) :
    descend sel t = (descend sel c).map (fun p => a :: p) := by
  conv_lhs => rw [descend]
  rw [if_neg (by rw [hterm]; exact Bool.false_ne_true), hse]
  dsimp only
  split
  next heq => rw [hl] at heq; exact absurd heq (by simp)
  next c' heq =>
    rw [hl, Option.some.injEq] at heq
    subst heq
    rfl

/-- Under the selection-policy contract, `select_node_to_expand` succeeds and
stops at a node that is terminal or that the policy asked to expand. -/
theorem descend_spec {A : ℕ} {sel : CNode E O → Option ℕ} (hsel : SelOK A sel) :
    ∀ (t : CNode E O), Inv A t →
      ∃ p n, descend sel t = some p ∧ getNode t p = some n ∧
        (n.data.terminal = true ∨ (n.data.terminal = false ∧ sel n = none)) := by
  have H : ∀ (k : ℕ) (t : CNode E O), sizeOf t ≤ k → Inv A t →
      ∃ p n, descend sel t = some p ∧ getNode t p = some n ∧
        (n.data.terminal = true ∨ (n.data.terminal = false ∧ sel n = none)) := by
    intro k
    induction k with
    | zero =>
      intro t ht
      exfalso
      obtain ⟨d, cs⟩ := t
      simp [CNode.mk.sizeOf_spec] at ht
    | succ k ih =>
      intro t ht hInv
      by_cases hterm : t.data.terminal = true
      · exact ⟨[], t, descend_terminal hterm, getNode_nil t, Or.inl hterm⟩
      · rw [Bool.not_eq_true] at hterm
        cases hse : sel t with
        | none =>
          exact ⟨[], t, descend_expand_here hterm hse, getNode_nil t,
            Or.inr ⟨hterm, hse⟩⟩
        | some a =>
          have hA : t.data.A = A := (hInv [] t (getNode_nil t)).1
          have hls : (alookup t.children a).isSome := (hsel t hA).1 a hse
          cases hl : alookup t.children a with
          | none => rw [hl] at hls; simp at hls
          | some c =>
            have hsz : sizeOf c ≤ k := by
              have := sizeOf_lookup_lt hl
              omega
            have hInvc : Inv A c := Inv_sub hInv (getNode_cons_of_lookup [] hl)
            obtain ⟨p, n, hd, hg, hn⟩ := ih c hsz hInvc
            refine ⟨a :: p, n, ?_, ?_, hn⟩
            · rw [descend_step hterm hse hl, hd, Option.map_some']
            · rw [getNode_cons_of_lookup p hl]
              exact hg
  intro t hInv
  exact H (sizeOf t) t le_rfl hInv

/-- Unfolding `expand` when the node holds a snapshot. -/
theorem expandNode_eq (estep : E → ℕ → E × O × ℚ × Bool × Bool)
    {t : CNode E O} {e : E} (a : ℕ) (henv : t.data.env = some e) :
    expandNode estep t a = some (CNode.mk
      { t.data with env := if (t.children.length : ℤ) = (t.data.A : ℤ) - 1 then none
                           else some e }
      (ainsert t.children a (CNode.mk ⟨some (estep e a).1, (estep e a).2.2.1, 0, 0, 0,
        (estep e a).2.2.2.1 || (estep e a).2.2.2.2,
        if (estep e a).2.2.2.1 then none else some (estep e a).2.1, t.data.A⟩ []))) := by
  unfold expandNode
  rw [henv]

@[simp] theorem setVal_data (v : ℚ) (t : CNode E O) :
    (setVal v t).data = { t.data with value_evaluation := v } := rfl

@[simp] theorem setVal_children (v : ℚ) (t : CNode E O) :
    (setVal v t).children = t.children := rfl

/-- The invariant constraint transfers along equal action-space size, equal
env snapshot and equal child keys. -/
theorem InvAt_of_sig {A : ℕ} {s0 s1 : CNode E O}
    (hA : s1.data.A = s0.data.A) (hE : s1.data.env = s0.data.env)
    (hk : akeys s1.children = akeys s0.children)
    (h : s0.data.A = A ∧ (¬ s0.fullyExpanded → s0.data.env.isSome)) :
    s1.data.A = A ∧ (¬ s1.fullyExpanded → s1.data.env.isSome) := by
  constructor
  · rw [hA]; exact h.1
  · intro hfe
    rw [hE]
    refine h.2 ?_
    intro hf
    refine hfe ?_
    unfold CNode.fullyExpanded at hf ⊢
    rw [← akeys_length, hk, akeys_length, hA]
    exact hf

/-- Storing a value evaluation at a node preserves the driver invariant. -/
theorem modifyAt_setVal_Inv {v : ℚ} {p : List ℕ} {t t' n : CNode E O} {A : ℕ}
    (hg : getNode t p = some n)
    (hm : modifyAt (setVal v) t p = some t')
    (hInv : Inv A t) : Inv A t' := by
  obtain ⟨t'', hm', h1, h2, h3⟩ := modifyAt_go (setVal v) p t n hg
  rw [hm, Option.some.injEq] at hm'
  subst hm'
  intro q s hq
  by_cases hq1 : p <+: q
  · obtain ⟨r, rfl⟩ := hq1
    rw [h1 r] at hq
    cases r with
    | nil =>
      rw [getNode_nil, Option.some.injEq] at hq
      subst hq
      exact InvAt_of_sig rfl rfl rfl (hInv p n hg)
    | cons b r' =>
      have hq' : getNode n (b :: r') = some s := hq
      exact hInv (p ++ b :: r') s (by rw [getNode_append_of_get hg]; exact hq')
  · by_cases hq2 : q <+: p
    · have hne : q ≠ p := by
        intro h
        exact hq1 (h ▸ List.prefix_rfl)
      have h0 : (getNode t q).isSome :=
        getNode_isSome_of_prefix hq2 (by rw [hg]; rfl)
      cases hg0 : getNode t q with
      | none => rw [hg0] at h0; simp at h0
      | some s0 =>
        obtain ⟨s1, hg1, hg2', hg3⟩ := h2 q hq2 hne s0 hg0
        rw [hq, Option.some.injEq] at hg1
        subst hg1
        exact InvAt_of_sig (by rw [hg2']) (by rw [hg2']) hg3 (hInv q s0 hg0)
    · rw [h3 q hq2 hq1] at hq
      exact hInv q s hq

/-- One iteration of the build-tree loop, under the policy contracts:
it succeeds, adds exactly one visit at the root (every backup path starts at
the root), and preserves the driver invariant. -/
theorem searchStep_spec {γ : ℚ} {A : ℕ} {sel : CNode E O → Option ℕ}
    {expPol : CNode E O → ℕ} {valueFn : CNode E O → ℚ}
    {estep : E → ℕ → E × O × ℚ × Bool × Bool}
    (hsel : SelOK A sel) (hexp : ExpOK A expPol) :
    ∀ t : CNode E O, Inv A t →
      ∃ t', searchStep γ sel expPol valueFn estep t = some t' ∧
        t'.data.visits = t.data.visits + 1 ∧ Inv A t' := by
  intro t hInv
  obtain ⟨p, n, hd, hg, hn⟩ := descend_spec hsel t hInv
  rcases hn with hterm | ⟨hterm, hseln⟩
  · obtain ⟨t1, hm1, h11, h12, h13⟩ := modifyAt_go (setVal 0) p t n hg
    have hInv1 : Inv A t1 := modifyAt_setVal_Inv hg hm1 hInv
    have hg1 : getNode t1 p = some (setVal 0 n) := by
      have h0 := h11 []
      rw [List.append_nil] at h0
      rw [h0]
      rfl
    have hs1 : (getNode t1 p).isSome := by rw [hg1]; rfl
    obtain ⟨t2, g2, hb2, _, hpre2, hoff2⟩ := backup_go γ 0 1 p t1 hs1
    have hInv2 : Inv A t2 := backup_Inv hs1 hb2 hInv1
    refine ⟨t2, ?_, ?_, hInv2⟩
    · simp [searchStep, hd, hg, hterm, hm1, hb2]
    · have hv1 : t1.data.visits = t.data.visits := by
        by_cases hp : p = []
        · subst hp
          rw [getNode_nil, Option.some.injEq] at hg
          rw [getNode_nil, Option.some.injEq] at hg1
          rw [hg1, hg]
          rfl
        · obtain ⟨s1, hx1, hx2, _⟩ :=
            h12 [] List.nil_prefix (fun h => hp h.symm) t (getNode_nil t)
          rw [getNode_nil, Option.some.injEq] at hx1
          rw [hx1, hx2]
      have hv2 : t2.data.visits = t1.data.visits + 1 := by
        obtain ⟨s1, gq, hx1, _, hx3, _⟩ :=
          hpre2 [] List.nil_prefix t1 (getNode_nil t1)
        rw [getNode_nil, Option.some.injEq] at hx1
        rw [hx1, hx3]
        rfl
      rw [hv2, hv1]
  · have hAn : n.data.A = A := (hInv p n hg).1
    have hnfe : ¬ n.fullyExpanded := (hsel n hAn).2 hseln
    have henvS : n.data.env.isSome := (hInv p n hg).2 hnfe
    cases he : n.data.env with
    | none => rw [he] at henvS; simp at henvS
    | some e =>
      have hfresh : alookup n.children (expPol n) = none := hexp n hAn hnfe
      have hx := expandNode_eq estep (expPol n) he
      set a := expPol n with ha
      set res := estep e a with hres
      set child : CNode E O := CNode.mk ⟨some res.1, res.2.2.1, 0, 0, 0,
        res.2.2.2.1 || res.2.2.2.2,
        if res.2.2.2.1 then none else some res.2.1, n.data.A⟩ [] with hchild
      set n' : CNode E O := CNode.mk
        { n.data with env := if (n.children.length : ℤ) = (n.data.A : ℤ) - 1
            then none else some e }
        (ainsert n.children a child) with hn'
      have hfreshk : a ∉ akeys n.children := (alookup_eq_none_iff _ _).mp hfresh
      obtain ⟨r1, hm1, h11, h12, h13⟩ := modifyAt_go (fun _ => n') p t n hg
      have hlc : alookup n'.children a = some child := by
        rw [hn', cnode_children_mk]
        exact ainsert_self _ _ _
      have hc1 : getNode r1 (p ++ [a]) = some child := by
        rw [h11 [a], getNode_cons_of_lookup [] hlc, getNode_nil]
      obtain ⟨r2, hm2, h21, h22, h23⟩ :=
        modifyAt_go (setVal (valueFn child)) (p ++ [a]) r1 child hc1
      have hc2 : getNode r2 (p ++ [a]) = some (setVal (valueFn child) child) := by
        have h0 := h21 []
        rw [List.append_nil] at h0
        rw [h0]
        rfl
      have hs2 : (getNode r2 (p ++ [a])).isSome := by rw [hc2]; rfl
      obtain ⟨r3, g3, hb3, _, hpre3, hoff3⟩ :=
        backup_go γ (valueFn child) 1 (p ++ [a]) r2 hs2
      have hInv1 : Inv A r1 := by
        intro q s hq
        by_cases hq1 : p <+: q
        · obtain ⟨r, rfl⟩ := hq1
          rw [h11 r] at hq
          cases r with
          | nil =>
            rw [getNode_nil, Option.some.injEq] at hq
            subst hq
            constructor
            · rw [hn']; exact hAn
            · intro hfe
              rw [hn', cnode_data_mk]
              by_cases hlast : (n.children.length : ℤ) = (n.data.A : ℤ) - 1
              · exfalso
                refine hfe ?_
                unfold CNode.fullyExpanded
                rw [hn', cnode_children_mk, cnode_data_mk, ← akeys_length,
                  akeys_ainsert_not_mem _ _ _ hfreshk, List.length_append,
                  akeys_length]
                simp only [List.length_singleton]
                omega
              · rw [if_neg hlast]
                rfl
          | cons b r' =>
            by_cases hba : b = a
            · rw [hba] at hq
              rw [getNode_cons_of_lookup r' hlc] at hq
              cases r' with
              | nil =>
                rw [getNode_nil, Option.some.injEq] at hq
                subst hq
                constructor
                · rw [hchild]; exact hAn
                · intro _
                  rw [hchild]
                  rfl
              | cons b' r'' =>
                rw [getNode_cons] at hq
                rw [hchild, cnode_children_mk, alookup_nil] at hq
                simp at hq
            · have hlb : alookup n'.children b = alookup n.children b := by
                rw [hn', cnode_children_mk]
                exact ainsert_other _ _ _ _ hba
              rw [getNode_cons, hlb, ← getNode_cons] at hq
              exact hInv (p ++ b :: r') s (by rw [getNode_append_of_get hg]; exact hq)
        · by_cases hq2 : q <+: p
          · have hne : q ≠ p := by
              intro h
              exact hq1 (h ▸ List.prefix_rfl)
            have h0 : (getNode t q).isSome :=
              getNode_isSome_of_prefix hq2 (by rw [hg]; rfl)
            cases hg0 : getNode t q with
            | none => rw [hg0] at h0; simp at h0
            | some s0 =>
              obtain ⟨s1, hx1, hx2, hx3⟩ := h12 q hq2 hne s0 hg0
              rw [hq, Option.some.injEq] at hx1
              subst hx1
              exact InvAt_of_sig (by rw [hx2]) (by rw [hx2]) hx3 (hInv q s0 hg0)
          · rw [h13 q hq2 hq1] at hq
            exact hInv q s hq
      have hInv2 : Inv A r2 := modifyAt_setVal_Inv hc1 hm2 hInv1
      have hInv3 : Inv A r3 := backup_Inv hs2 hb3 hInv2
      refine ⟨r3, ?_, ?_, hInv3⟩
      · simp [searchStep, hd, hg, hterm, ← ha, hx, hm1, hc1, hm2, hb3]
      · have hv1 : r1.data.visits = t.data.visits := by
          by_cases hp : p = []
          · subst hp
            rw [getNode_nil, Option.some.injEq] at hg
            have h0 := h11 []
            rw [List.append_nil] at h0
            simp only [getNode_nil, Option.some.injEq] at h0
            rw [h0, hn', cnode_data_mk, hg]
          · obtain ⟨s1, hx1, hx2, _⟩ :=
              h12 [] List.nil_prefix (fun h => hp h.symm) t (getNode_nil t)
            rw [getNode_nil, Option.some.injEq] at hx1
            rw [hx1, hx2]
        have hv2 : r2.data.visits = r1.data.visits := by
          obtain ⟨s1, hx1, hx2, _⟩ := h22 [] List.nil_prefix
            (by simp) r1 (getNode_nil r1)
          rw [getNode_nil, Option.some.injEq] at hx1
          rw [hx1, hx2]
        have hv3 : r3.data.visits = r2.data.visits + 1 := by
          obtain ⟨s1, gq, hx1, _, hx3, _⟩ :=
            hpre3 [] List.nil_prefix r2 (getNode_nil r2)
          rw [getNode_nil, Option.some.injEq] at hx1
          rw [hx1, hx3]
          rfl
        rw [hv3, hv2, hv1]

/-- The build-tree loop with enough fuel runs until the root's visit count
reaches the budget exactly: each iteration adds one visit, and the loop stops
as soon as `visits < budget` fails. -/
theorem buildTree_reach {γ : ℚ} {A : ℕ} {sel : CNode E O → Option ℕ}
    {expPol : CNode E O → ℕ} {valueFn : CNode E O → ℚ}
    {estep : E → ℕ → E × O × ℚ × Bool × Bool}
    (hsel : SelOK A sel) (hexp : ExpOK A expPol) (budget : ℕ) :
    ∀ (fuel : ℕ) (t : CNode E O), Inv A t → t.data.visits ≤ budget →
      budget ≤ t.data.visits + fuel →
      ∃ t', buildTree γ sel expPol valueFn estep budget fuel t = some t' ∧
        t'.data.visits = budget ∧ Inv A t' := by
  intro fuel
  induction fuel with
  | zero =>
    intro t hInv h1 h2
    have hv : t.data.visits = budget := by omega
    refine ⟨t, ?_, hv, hInv⟩
    rw [buildTree, if_neg (by omega)]
  | succ fuel ih =>
    intro t hInv h1 h2
    by_cases hlt : t.data.visits < budget
    · obtain ⟨t', hstep, hv, hInv'⟩ := searchStep_spec hsel hexp t hInv
      obtain ⟨t'', hbt, hv'', hInv''⟩ := ih t' hInv' (by omega) (by omega)
      refine ⟨t'', ?_, hv'', hInv''⟩
      rw [buildTree, if_pos hlt]
      show (match searchStep γ sel expPol valueFn estep t with
        | none => none
        | some t2 => buildTree γ sel expPol valueFn estep budget fuel t2) = some t''
      rw [hstep]
      exact hbt
    · have hv : t.data.visits = budget := by omega
      refine ⟨t, ?_, hv, hInv⟩
      rw [buildTree, if_neg hlt]

/-- C7: under the policy contracts (the reference `UCB` selection and an
expansion policy that picks unexpanded actions, with single-child expansion
and any value estimator — `Zero` and `RandomRollout` are special cases of the
abstract `valueFn`), `search(env, budget, obs, reward)` terminates for every
budget ≥ 1 and returns a root whose `visits` is exactly `budget`: the root's
initial evaluation contributes the first visit and each loop iteration adds
exactly one more until `root.visits < budget` fails. -/
theorem claim_C7 {γ : ℚ} {A : ℕ} {sel : CNode E O → Option ℕ}
    {expPol : CNode E O → ℕ} {valueFn : CNode E O → ℚ}
    {estep : E → ℕ → E × O × ℚ × Bool × Bool}
    (hsel : SelOK A sel) (hexp : ExpOK A expPol)
    (env : E) (budget : ℕ) (hb : 1 ≤ budget) (obs : O) (reward : ℚ) :
    ∃ t, search γ sel expPol valueFn estep A env budget obs reward = some t ∧
      t.data.visits = budget := by
  have hsr : search γ sel expPol valueFn estep A env budget obs reward
      = buildTree γ sel expPol valueFn estep budget budget
        (CNode.mk (bump
          (γ * valueFn (CNode.mk ⟨some env, reward, 0, 0, 0, false, some obs, A⟩ []) + reward) 1
          { (⟨some env, reward, 0, 0, 0, false, some obs, A⟩ : NodeData E O) with
              value_evaluation :=
                valueFn (CNode.mk ⟨some env, reward, 0, 0, 0, false, some obs, A⟩ []) }) []) := rfl
  have hInvr : Inv A (CNode.mk (bump
      (γ * valueFn (CNode.mk ⟨some env, reward, 0, 0, 0, false, some obs, A⟩ []) + reward) 1
      { (⟨some env, reward, 0, 0, 0, false, some obs, A⟩ : NodeData E O) with
          value_evaluation :=
            valueFn (CNode.mk ⟨some env, reward, 0, 0, 0, false, some obs, A⟩ []) }) []) := by
    intro q s hq
    cases q with
    | nil =>
      rw [getNode_nil, Option.some.injEq] at hq
      subst hq
      exact ⟨rfl, fun _ => rfl⟩
    | cons b q' =>
      rw [getNode_cons, cnode_children_mk, alookup_nil] at hq
      simp at hq
  obtain ⟨t, hbt, hv, _⟩ := buildTree_reach hsel hexp budget budget _ hInvr
    (by show 0 + 1 ≤ budget; omega) (by show budget ≤ 0 + 1 + budget; omega)
  exact ⟨t, by rw [hsr]; exact hbt, hv⟩

theorem mem_le_foldr_max {l : List ℕ} {k : ℕ} (h : k ∈ l) :
    k ≤ l.foldr max 0 := by
  induction l with
  | nil => simp at h
  | cons hd tl ih =>
    rcases List.mem_cons.mp h with h | h
    · subst h
      exact le_max_left _ _
    · exact le_trans (ih h) (le_max_right _ _)

/-- The concrete selection policy obeys the `UCB` contract for `A = 1`. -/
theorem cSel_ok : SelOK 1 cSel := by
  intro n hA
  constructor
  · intro a hsa
    cases hc : n.children with
    | nil => simp [cSel, hc] at hsa
    | cons hd tl =>
      obtain ⟨k, c⟩ := hd
      simp only [cSel, hc] at hsa
      by_cases hlen : ((k, c) :: tl).length = n.data.A
      · rw [if_pos hlen, Option.some.injEq] at hsa
        subst hsa
        simp [alookup]
      · rw [if_neg hlen] at hsa
        simp at hsa
  · intro hnone hfe
    unfold CNode.fullyExpanded at hfe
    cases hc : n.children with
    | nil =>
      rw [hc] at hfe
      rw [hA] at hfe
      simp at hfe
    | cons hd tl =>
      obtain ⟨k, c⟩ := hd
      rw [hc] at hfe
      simp only [cSel, hc, if_pos hfe] at hnone
      exact Option.noConfusion hnone

/-- The concrete expansion policy always picks an action with no child. -/
theorem cExp_fresh (n : CNode Unit Unit) : alookup n.children (cExp n) = none := by
  rw [alookup_eq_none_iff]
  intro hmem
  have h := mem_le_foldr_max hmem
  unfold cExp at h
  omega

/-- The concrete expansion policy obeys the expansion contract. -/
theorem cExp_ok (A : ℕ) : ExpOK A cExp := fun n _ _ => cExp_fresh n

/-- C7 witness: a search of budget 3 on the always-terminating environment
returns a root with exactly 3 visits. -/
theorem claim_C7_witness :
    ∃ t, search 1 cSel cExp cVal cEstepTerm 1 () 3 () 0 = some t ∧
      t.data.visits = 3 :=
  claim_C7 cSel_ok (cExp_ok 1) () 3 (by norm_num) () 0

/-- Counting unexpanded actions: with distinct keys inside `[0, A)`, the
actions without a child number `A - |keys|`. -/
theorem filter_not_mem_length {A : ℕ} {keys : List ℕ} (hnd : keys.Nodup)
    (hsub : ∀ k ∈ keys, k < A) :
    ((List.range A).filter (fun b => b ∉ keys)).length = A - keys.length := by
  have hn : ((List.range A).filter (fun b => b ∉ keys)).Nodup :=
    (List.nodup_range A).filter _
  rw [← List.toFinset_card_of_nodup hn]
  have hset : ((List.range A).filter (fun b => b ∉ keys)).toFinset
      = Finset.range A \ keys.toFinset := by
    ext b
    simp only [List.mem_toFinset, List.mem_filter, List.mem_range,
      Finset.mem_sdiff, Finset.mem_range, decide_eq_true_eq]
  have hsubF : keys.toFinset ⊆ Finset.range A := by
    intro b hb
    rw [List.mem_toFinset] at hb
    exact Finset.mem_range.mpr (hsub b hb)
  rw [hset, Finset.card_sdiff hsubF, Finset.card_range,
    List.toFinset_card_of_nodup hnd]

/-- C8: `expand(node, action)` under a distinct, in-range child table: when
exactly one unexpanded action remains (which is precisely the source's
`len(children) == action_space.n - 1` test) the driver takes ownership of the
node's snapshot and nulls the node's reference, otherwise it deep-copies the
snapshot and leaves the node's snapshot in place; in both cases the chosen
environment is stepped exactly once with `action`, producing the new child
stored under `action` with constructor-default statistics; no other child and
no other field of the node changes.  The environment passed to `search`
itself is never touched: expansion reads only the node's own snapshot (and
values are immutable in this embedding). -/
theorem claim_C8 (estep : E → ℕ → E × O × ℚ × Bool × Bool) (t : CNode E O)
    (e : E) (a : ℕ)
    (henv : t.data.env = some e)
    (hnd : (akeys t.children).Nodup)
    (hsub : ∀ k ∈ akeys t.children, k < t.data.A) :
    ∃ t' child, expandNode estep t a = some t' ∧
      child.data.env = some (estep e a).1 ∧
      child.data.reward = (estep e a).2.2.1 ∧
      child.data.terminal = ((estep e a).2.2.2.1 || (estep e a).2.2.2.2) ∧
      child.data.observation
        = (if (estep e a).2.2.2.1 then none else some (estep e a).2.1) ∧
      child.data.visits = 0 ∧ child.data.subtree_sum = 0 ∧
      child.children = [] ∧ child.data.A = t.data.A ∧
      alookup t'.children a = some child ∧
      (∀ b, b ≠ a → alookup t'.children b = alookup t.children b) ∧
      t'.data.reward = t.data.reward ∧
      t'.data.visits = t.data.visits ∧
      t'.data.subtree_sum = t.data.subtree_sum ∧
      t'.data.value_evaluation = t.data.value_evaluation ∧
      t'.data.terminal = t.data.terminal ∧
      t'.data.A = t.data.A ∧
      (unexpCount t = 1 → t'.data.env = none) ∧
      (unexpCount t ≠ 1 → t'.data.env = some e) := by
  have hcount : unexpCount t = t.data.A - t.children.length := by
    unfold unexpCount
    rw [filter_not_mem_length hnd hsub, akeys_length]
  have hlen : t.children.length ≤ t.data.A := by
    have h1 : (akeys t.children).toFinset.card = t.children.length := by
      rw [List.toFinset_card_of_nodup hnd, akeys_length]
    have h2 : (akeys t.children).toFinset ⊆ Finset.range t.data.A := by
      intro b hb
      rw [List.mem_toFinset] at hb
      exact Finset.mem_range.mpr (hsub b hb)
    have := Finset.card_le_card h2
    rwa [Finset.card_range, h1] at this
  refine ⟨_, CNode.mk ⟨some (estep e a).1, (estep e a).2.2.1, 0, 0, 0,
      (estep e a).2.2.2.1 || (estep e a).2.2.2.2,
      if (estep e a).2.2.2.1 then none else some (estep e a).2.1, t.data.A⟩ [],
    expandNode_eq estep a henv, rfl, rfl, rfl, rfl, rfl, rfl, rfl, rfl,
    ?_, ?_, rfl, rfl, rfl, rfl, rfl, rfl, ?_, ?_⟩
  · rw [cnode_children_mk]
    exact ainsert_self _ _ _
  · intro b hb
    rw [cnode_children_mk]
    exact ainsert_other _ _ _ _ hb
  · intro h1
    rw [cnode_data_mk]
    rw [if_pos (by omega)]
  · intro h1
    rw [cnode_data_mk]
    rw [if_neg (by omega)]

/-- C8 witness: expanding action `0` at the two-action node `wExpandable`,
whose one unexpanded action remains: the snapshot is moved and the child is
the stepped environment. -/
theorem claim_C8_witness :
    ∃ t' child, expandNode cEstepTerm wExpandable 0 = some t' ∧
      child.data.env = some (cEstepTerm () 0).1 ∧
      child.data.reward = (cEstepTerm () 0).2.2.1 ∧
      child.data.terminal = ((cEstepTerm () 0).2.2.2.1 || (cEstepTerm () 0).2.2.2.2) ∧
      child.data.observation
        = (if (cEstepTerm () 0).2.2.2.1 then none else some (cEstepTerm () 0).2.1) ∧
      child.data.visits = 0 ∧ child.data.subtree_sum = 0 ∧
      child.children = [] ∧ child.data.A = wExpandable.data.A ∧
      alookup t'.children 0 = some child ∧
      (∀ b, b ≠ 0 → alookup t'.children b = alookup wExpandable.children b) ∧
      t'.data.reward = wExpandable.data.reward ∧
      t'.data.visits = wExpandable.data.visits ∧
      t'.data.subtree_sum = wExpandable.data.subtree_sum ∧
      t'.data.value_evaluation = wExpandable.data.value_evaluation ∧
      t'.data.terminal = wExpandable.data.terminal ∧
      t'.data.A = wExpandable.data.A ∧
      (unexpCount wExpandable = 1 → t'.data.env = none) ∧
      (unexpCount wExpandable ≠ 1 → t'.data.env = some ()) :=
  claim_C8 cEstepTerm wExpandable () 0 rfl (by decide) (by decide)

/-- Running the build-tree loop on a childless node whose terminal flag is
set: every iteration selects the root itself, backs up `0`, and adds the
root's own reward once; no expansion ever happens. -/
theorem buildTree_terminal {γ : ℚ} {sel : CNode E O → Option ℕ}
    {expPol : CNode E O → ℕ} {valueFn : CNode E O → ℚ}
    {estep : E → ℕ → E × O × ℚ × Bool × Bool} (budget : ℕ) :
    ∀ (fuel : ℕ) (t : CNode E O), t.data.terminal = true → t.children = [] →
      t.data.visits ≤ budget → budget ≤ t.data.visits + fuel →
      ∃ t', buildTree γ sel expPol valueFn estep budget fuel t = some t' ∧
        t'.children = [] ∧ t'.data.terminal = true ∧
        t'.data.visits = budget ∧
        t'.data.reward = t.data.reward ∧
        t'.data.subtree_sum = t.data.subtree_sum
          + ((budget - t.data.visits : ℕ) : ℚ) * t.data.reward := by
  intro fuel
  induction fuel with
  | zero =>
    intro t hterm hc h1 h2
    have hv : t.data.visits = budget := by omega
    refine ⟨t, ?_, hc, hterm, hv, rfl, ?_⟩
    · rw [buildTree, if_neg (by omega)]
    · rw [hv]
      simp
  | succ fuel ih =>
    intro t hterm hc h1 h2
    by_cases hlt : t.data.visits < budget
    · have hstep : searchStep γ sel expPol valueFn estep t
          = some (CNode.mk (bump (γ * 0 + t.data.reward) 1
              { t.data with value_evaluation := 0 }) t.children) := by
        simp [searchStep, descend_terminal hterm, hterm, modifyAt, backup, setVal]
      set t1 : CNode E O := CNode.mk (bump (γ * 0 + t.data.reward) 1
        { t.data with value_evaluation := 0 }) t.children with ht1
      obtain ⟨t', hbt, hc', hterm', hv', hr', hs'⟩ := ih t1
        (by rw [ht1]; exact hterm) (by rw [ht1, cnode_children_mk]; exact hc)
        (by show t.data.visits + 1 ≤ budget; omega)
        (by show budget ≤ t.data.visits + 1 + fuel; omega)
      refine ⟨t', ?_, hc', hterm', hv', ?_, ?_⟩
      · rw [buildTree, if_pos hlt]
        show (match searchStep γ sel expPol valueFn estep t with
          | none => none
          | some t2 => buildTree γ sel expPol valueFn estep budget fuel t2) = some t'
        rw [hstep]
        exact hbt
      · rw [hr']; rfl
      · rw [hs']
        show t.data.subtree_sum + (γ * 0 + t.data.reward)
            + ((budget - (t.data.visits + 1) : ℕ) : ℚ) * t.data.reward = _
        have hn : (budget - t.data.visits : ℕ) = (budget - (t.data.visits + 1) : ℕ) + 1 := by
          omega
        rw [hn]
        push_cast
        ring
    · have hv : t.data.visits = budget := by omega
      refine ⟨t, ?_, hc, hterm, hv, rfl, ?_⟩
      · rw [buildTree, if_neg hlt]
      · rw [hv]
        simp

/-- C9 (amended): when the ROOT NODE is marked terminal (the state the spec's
"terminal root" boundary case describes — a childless, once-evaluated root
whose first backup contributed `reward` to `subtree_sum`), no expansion
occurs, the loop runs until `root.visits == budget`, and
`root.default_value()` equals the incoming reward — which is `0` only when
`incoming_reward` is `0`.  `search` itself never sets the flag: it constructs
the root with `terminal = false`, so on an environment whose root state is
terminal it still expands (the counterexample). -/
theorem claim_C9 {γ : ℚ} {sel : CNode E O → Option ℕ} {expPol : CNode E O → ℕ}
    {valueFn : CNode E O → ℚ} {estep : E → ℕ → E × O × ℚ × Bool × Bool}
    (A : ℕ) (e : E) (obs : O) (reward : ℚ) (budget : ℕ) (hb : 1 ≤ budget) :
    ∃ t', buildTree γ sel expPol valueFn estep budget budget
        (CNode.mk ⟨some e, reward, 1, reward, 0, true, some obs, A⟩ []) = some t' ∧
      t'.children = [] ∧ t'.data.visits = budget ∧
      CNode.default_value t' = reward := by
  obtain ⟨t', hbt, hc', hterm', hv', hr', hs'⟩ :=
    buildTree_terminal budget budget
      (CNode.mk (⟨some e, reward, 1, reward, 0, true, some obs, A⟩ : NodeData E O) [])
      rfl rfl (by show 1 ≤ budget; omega) (by show budget ≤ 1 + budget; omega)
  refine ⟨t', hbt, hc', hv', ?_⟩
  unfold CNode.default_value
  rw [if_neg (by rw [hv']; omega), hv', hs']
  show (reward + ((budget - 1 : ℕ) : ℚ) * reward) / (budget : ℚ) = reward
  have hbq : ((budget : ℚ)) ≠ 0 := by
    have : budget ≠ 0 := by omega
    exact_mod_cast this
  have hcast : ((budget - 1 : ℕ) : ℚ) = (budget : ℚ) - 1 := by
    push_cast [Nat.cast_sub hb]
    ring
  rw [hcast]
  field_simp
  ring

/-- C9 witness: budget 3 with incoming reward 2 on a terminal-flagged root:
no children, 3 visits, `default_value = 2`. -/
theorem claim_C9_witness :
    ∃ t', buildTree 1 cSel cExp cVal cEstepTerm 3 3
        (CNode.mk ⟨some (), 2, 1, 2, 0, true, some (), 1⟩ []) = some t' ∧
      t'.children = [] ∧ t'.data.visits = 3 ∧
      CNode.default_value t' = 2 :=
  claim_C9 1 () () 2 3 (by norm_num)

set_option maxRecDepth 8000 in
/-- C9 counterexample: a search on an environment whose root state is
terminal (every action terminates at once).  `search` constructs the root
with `terminal = false`, so expansion occurs anyway: with budget 2 the root
ends with one child (not none), `visits = 2`, and `default_value = 1/2 ≠ 0`,
contradicting the claimed "no expansion" and "default_value == 0". -/
theorem claim_C9_counterexample :
    (search 1 cSel cExp cVal cEstepTerm 1 () 2 () 0).map
        (fun t => (t.children.length, t.data.visits, CNode.default_value t))
      = some (1, 2, 1/2) ∧ (1 : ℕ) ≠ 0 ∧ (1/2 : ℚ) ≠ 0 := by
  refine ⟨?_, by norm_num, by norm_num⟩
  simp [search, buildTree, searchStep, descend, getNode, modifyAt, backup,
    pathG, expandNode, setVal, cSel, cExp, cVal, cEstepTerm, alookup, ainsert,
    bump, CNode.default_value, akeys]

end Core

/-! ## Claim theorem: `src/policies/policies.py` -/

namespace Policies

/-- C10: for a node with no children, `softmaxed_distribution(node,
include_self=True)` returns a categorical distribution over `A + 1` slots
that puts probability `1` on the final (self) slot and `0` on every action
slot, whatever the temperature and whatever `_probs` the concrete policy
implements: the leaf branch returns before either is consulted. -/
theorem claim_C10 {E O : Type} (pprobs : Core.CNode E O → List ℝ)
    (temperature : Option ℝ) (t : Core.CNode E O) (hc : t.children = []) :
    softmaxed_distribution pprobs temperature t true
      = List.replicate t.data.A (0 : ℝ) ++ [1] ∧
    (softmaxed_distribution pprobs temperature t true).length = t.data.A + 1 ∧
    (softmaxed_distribution pprobs temperature t true).getLast? = some 1 ∧
    ∀ x ∈ (softmaxed_distribution pprobs temperature t true).take t.data.A,
      x = 0 := by
  have hb : softmaxed_distribution pprobs temperature t true
      = List.replicate t.data.A (0 : ℝ) ++ [1] := by
    unfold softmaxed_distribution
    rw [if_pos ⟨rfl, by rw [hc]; rfl⟩]
    unfold categoricalProbs
    have hsum : (List.replicate t.data.A (0 : ℝ) ++ [1]).sum = 1 := by
      rw [List.sum_append, List.sum_replicate]
      simp
    rw [hsum]
    rw [List.map_append, List.map_replicate]
    norm_num
  refine ⟨hb, ?_, ?_, ?_⟩
  · rw [hb, List.length_append, List.length_replicate]
    rfl
  · rw [hb]
    exact List.getLast?_concat _
  · intro x hx
    rw [hb] at hx
    have ht : (List.replicate t.data.A (0 : ℝ) ++ [1]).take t.data.A
        = List.replicate t.data.A (0 : ℝ) := by
      have := List.take_left (List.replicate t.data.A (0 : ℝ)) [(1 : ℝ)]
      rwa [List.length_replicate] at this
    rw [ht] at hx
    exact List.eq_of_mem_replicate hx

/-- C10 witness: on the childless single-action node `wSolo` with a positive
temperature and an arbitrary `_probs`, the distribution is `[0, 1]`. -/
theorem claim_C10_witness :
    softmaxed_distribution (fun _ => []) (some 5) Core.wSolo true
      = List.replicate Core.wSolo.data.A (0 : ℝ) ++ [1] ∧
    (softmaxed_distribution (fun _ => []) (some 5) Core.wSolo true).length
      = Core.wSolo.data.A + 1 ∧
    (softmaxed_distribution (fun _ => []) (some 5) Core.wSolo true).getLast?
      = some 1 ∧
    ∀ x ∈ (softmaxed_distribution (fun _ => []) (some 5) Core.wSolo true).take
      Core.wSolo.data.A, x = 0 :=
  claim_C10 (fun _ => []) (some 5) Core.wSolo rfl

end Policies

end PAZ
